import Mathlib

/-!
# Verification of the empirical poker probability generator

Shallow embedding of `poker_jordan_vanevery.c`: the hand classifier
(`getHandRank` and its category detectors), the cascading hand comparator
(`isBetterHand`), the bubble sort on the hand (`sortHand`), and the Monte
Carlo improvement-probability estimator (`getProbabilities`), together with
theorems checking the natural-language specification against this code.

Modelling conventions:
* a card is a pair `(rank, suit)` of naturals; ranks are the integers 2..14
  produced by `rankToInt`, suits are the ASCII codes of `C`, `D`, `H`, `S`
  (the elements of `SUIT_LIST`);
* the parallel global arrays `handRank[]` / `handSuit[]` are modelled as a
  single list of cards, projected through `ranks` and `suits`;
* array reads `handRank[i]` are modelled by `nth`, which returns the junk
  value 0 for an out-of-bounds index.  The C program does read
  `handRank[5]` (one element past the array) in some of the detectors; in
  the running program that read returns adjacent memory that never holds a
  value equal to a card rank (all card ranks are ≥ 2), which the junk
  value 0 reproduces.  The instrumented variant `isFullHouseChk` returns
  `none` instead when an out-of-bounds read happens, to make that
  behaviour provable;
* the index-variable loops of the C source are modelled by structural
  recursion over an explicit list of successive index values (`idx16`…),
  long enough to cover every iteration the C loop can perform;
* `rand()` is modelled by an arbitrary stream `rng : ℕ → ℕ` together with
  a counter `rc` of consumed values; the rejection-sampling `do … while`
  loop gets a fuel parameter and returns `none` when the fuel is
  exhausted (the C loop simply keeps drawing);
* the probability array holds rationals in place of C `float`s.
-/

namespace Poker

/-! ## Constants from the C source -/

def HAND_SIZE : ℕ := 5
def SUIT_COUNT : ℕ := 4
def RANK_COUNT : ℕ := 13

def HIGH_CARD : ℕ := 1
def ONE_PAIR : ℕ := 2
def TWO_PAIR : ℕ := 3
def THREE_OF_A_KIND : ℕ := 4
def STRAIGHT : ℕ := 5
def FLUSH : ℕ := 6
def FULL_HOUSE : ℕ := 7
def FOUR_OF_A_KIND : ℕ := 8
def STRAIGHT_FLUSH : ℕ := 9

/-- ASCII codes of the suit characters of `SUIT_LIST[] = "CDHS"`. -/
def SUIT_LIST : List ℕ := [67, 68, 72, 83]

/-- A card: rank paired with suit, as held by `handRank[i]` / `handSuit[i]`. -/
abbrev Card := ℕ × ℕ

/-- Rank projection of a hand (the `handRank[]` array). -/
def ranks (h : List Card) : List ℕ := h.map Prod.fst

/-- Suit projection of a hand (the `handSuit[]` array). -/
def suits (h : List Card) : List ℕ := h.map Prod.snd

/-- Array read `a[i]`; out of bounds yields the junk value 0, which is
distinct from every card rank and every suit code. -/
def nth (a : List ℕ) (i : ℕ) : ℕ := a.getD i 0

/-- Successive index values fed to the scan loops of the detectors; the
list is longer than any loop's possible iteration count. -/
def idx16 : List ℕ := [0, 1, 2, 3, 4, 5, 6, 7, 8, 9, 10, 11, 12, 13, 14, 15]

/-! ## Category detectors -/

/-- Loop of `highCard`: scan `handRank[0..4]` keeping the maximum. -/
def hcLoop (hr : List ℕ) : List ℕ → ℕ → ℕ
  | [], acc => acc
  | i :: rest, acc =>
    if i < HAND_SIZE then
      hcLoop hr rest (if acc < nth hr i then nth hr i else acc)
    else acc

/-- `highCard`: the highest card rank in the hand. -/
def highCard (hr : List ℕ) : ℕ := hcLoop hr idx16 0

/-- Loop of `isFlush`: do all of `handSuit[1..4]` equal `handSuit[0]`? -/
def flEqLoop (hs : List ℕ) : List ℕ → Bool
  | [] => true
  | i :: rest =>
    if i < HAND_SIZE then
      if nth hs i ≠ nth hs 0 then false else flEqLoop hs rest
    else true

/-- Summation loop of `isFlush`: `flushSum += handRank[i]`. -/
def flSumLoop (hr : List ℕ) : List ℕ → ℕ → ℕ
  | [], acc => acc
  | i :: rest, acc =>
    if i < HAND_SIZE then flSumLoop hr rest (acc + nth hr i) else acc

/-- `isFlush`: all five suits equal; returns the sum of the five ranks as
the minor rank, 0 otherwise. -/
def isFlush (hr hs : List ℕ) : ℕ :=
  if flEqLoop hs [1, 2, 3, 4, 5] then flSumLoop hr [0, 1, 2, 3, 4, 5] 0 else 0

/-- `specialStraight[] = {2,3,4,5,14}`, the wheel pattern. -/
def specialStraight : List ℕ := [2, 3, 4, 5, 14]

/-- First loop of `isStraight`: smallest index where the hand deviates from
the wheel pattern (5 if it never deviates). -/
def siLoop (hr : List ℕ) : List ℕ → ℕ
  | [] => HAND_SIZE
  | i :: rest =>
    if i < HAND_SIZE then
      if nth hr i ≠ nth specialStraight i then i else siLoop hr rest
    else i

/-- Second loop of `isStraight`: smallest index where the hand stops being
consecutive (4 if it never stops). -/
def sjLoop (hr : List ℕ) : List ℕ → ℕ
  | [] => HAND_SIZE - 1
  | j :: rest =>
    if j < HAND_SIZE - 1 then
      if nth hr j ≠ nth hr (j + 1) - 1 then j else sjLoop hr rest
    else j

/-- `isStraight`: high card of the run for a straight (5 for the wheel),
0 otherwise. -/
def isStraight (hr : List ℕ) : ℕ :=
  let i := siLoop hr [0, 1, 2, 3, 4, 5]
  let j := sjLoop hr [0, 1, 2, 3, 4]
  let fromRun := if j = HAND_SIZE - 1 then nth hr (HAND_SIZE - 1) else 0
  if i = HAND_SIZE then nth hr (HAND_SIZE - 2) else fromRun

/-- Loop of `isXOfAKind`: scan for `x` consecutive equal ranks, giving up
once more than `HAND_SIZE - x + 1` distinct ranks were seen.  The index
`i` is not bounded by the array length, exactly as in the C source. -/
def xkLoop (hr : List ℕ) (x : ℕ) : List ℕ → ℕ → ℕ → ℕ
  | [], _, _ => 0
  | i :: rest, mc, dc =>
    if dc ≤ HAND_SIZE - x + 1 then
      if nth hr i = nth hr (i + 1) then
        if mc + 1 = x then nth hr i else xkLoop hr x rest (mc + 1) dc
      else
        if 1 = x then nth hr i else xkLoop hr x rest 1 (dc + 1)
    else 0

/-- `isXOfAKind x`: the repeated rank if `x` cards share a rank, else 0. -/
def isXOfAKind (x : ℕ) (hr : List ℕ) : ℕ := xkLoop hr x idx16 1 1

/-- Loop of `isFullHouse`: count the sizes of the first two rank groups in
`counter[0]`, `counter[1]` until three distinct ranks were seen.  The index
`i` is not bounded by the array length, exactly as in the C source. -/
def fhLoop (hr : List ℕ) : List ℕ → ℕ → ℕ → ℕ → ℕ → ℕ
  | [], _, _, _, t => t
  | i :: rest, u, c0, c1, t =>
    if u < 3 then
      if nth hr i = nth hr (i + 1) then
        let c0n := if u = 1 then c0 + 1 else c0
        let c1n := if u = 2 then c1 + 1 else c1
        let tn :=
          if c0n = 2 ∧ c1n = 3 then nth hr (HAND_SIZE - 1)
          else if c0n = 3 ∧ c1n = 2 then nth hr 0
          else t
        fhLoop hr rest u c0n c1n tn
      else
        let tn :=
          if c0 = 2 ∧ c1 = 3 then nth hr (HAND_SIZE - 1)
          else if c0 = 3 ∧ c1 = 2 then nth hr 0
          else t
        fhLoop hr rest (u + 1) c0 c1 tn
    else t

/-- `isFullHouse`: rank of the triplet if the hand is a full house, 0
otherwise. -/
def isFullHouse (hr : List ℕ) : ℕ := fhLoop hr idx16 1 1 1 0

/-- Checked array read: `none` on an out-of-bounds index. -/
def nthChk (a : List ℕ) (i : ℕ) : Option ℕ :=
  if i < HAND_SIZE then some (nth a i) else none

/-- Instrumented variant of `fhLoop` in which every array read is checked:
the result is `none` exactly when the C loop reads past `handRank[4]`. -/
def fhLoopChk (hr : List ℕ) : List ℕ → ℕ → ℕ → ℕ → ℕ → Option ℕ
  | [], _, _, _, t => some t
  | i :: rest, u, c0, c1, t =>
    if u < 3 then
      match nthChk hr i, nthChk hr (i + 1) with
      | some v, some w =>
        if v = w then
          let c0n := if u = 1 then c0 + 1 else c0
          let c1n := if u = 2 then c1 + 1 else c1
          let tn :=
            if c0n = 2 ∧ c1n = 3 then nth hr (HAND_SIZE - 1)
            else if c0n = 3 ∧ c1n = 2 then nth hr 0
            else t
          fhLoopChk hr rest u c0n c1n tn
        else
          let tn :=
            if c0 = 2 ∧ c1 = 3 then nth hr (HAND_SIZE - 1)
            else if c0 = 3 ∧ c1 = 2 then nth hr 0
            else t
          fhLoopChk hr rest (u + 1) c0 c1 tn
      | _, _ => none
    else some t

/-- `isFullHouse` with checked array reads: `none` when the scan loop
touches an index outside 0..4. -/
def isFullHouseChk (hr : List ℕ) : Option ℕ := fhLoopChk hr idx16 1 1 1 0

/-- Instrumented variant of `xkLoop` with checked array reads. -/
def xkLoopChk (hr : List ℕ) (x : ℕ) : List ℕ → ℕ → ℕ → Option ℕ
  | [], _, _ => some 0
  | i :: rest, mc, dc =>
    if dc ≤ HAND_SIZE - x + 1 then
      match nthChk hr i, nthChk hr (i + 1) with
      | some v, some w =>
        if v = w then
          if mc + 1 = x then some (nth hr i) else xkLoopChk hr x rest (mc + 1) dc
        else
          if 1 = x then some (nth hr i) else xkLoopChk hr x rest 1 (dc + 1)
      | _, _ => none
    else some 0

/-- `isXOfAKind` with checked array reads: `none` when the scan loop
touches an index outside 0..4. -/
def isXOfAKindChk (x : ℕ) (hr : List ℕ) : Option ℕ := xkLoopChk hr x idx16 1 1

/-- Loop of `isTwoPair`: group sizes `counter[0..2]` of the first three
rank groups; the scan is bounded by `i < HAND_SIZE - 1`. -/
def tpLoop (hr : List ℕ) : List ℕ → ℕ → ℕ → ℕ → ℕ → ℕ × ℕ × ℕ
  | [], _, c0, c1, c2 => (c0, c1, c2)
  | i :: rest, u, c0, c1, c2 =>
    if u < 4 ∧ i < HAND_SIZE - 1 then
      if nth hr i = nth hr (i + 1) then
        tpLoop hr rest u
          (if u = 1 then c0 + 1 else c0)
          (if u = 2 then c1 + 1 else c1)
          (if u = 3 then c2 + 1 else c2)
      else
        tpLoop hr rest (u + 1) c0 c1 c2
    else (c0, c1, c2)

/-- `isTwoPair`: rank of the higher pair if two disjoint pairs exist,
0 otherwise. -/
def isTwoPair (hr : List ℕ) : ℕ :=
  let c := tpLoop hr [0, 1, 2, 3, 4] 1 1 1 1
  if c.1 = 2 ∧ c.2.1 = 2 then nth hr (HAND_SIZE / 2)
  else if (c.1 = 2 ∧ c.2.2 = 2) ∨ (c.2.1 = 2 ∧ c.2.2 = 2) then
    nth hr (HAND_SIZE - 1)
  else 0

/-! ## Classification and comparison -/

/-- `getHandRank`: the three digits of `pokerHandID` — major rank, minor
rank, and the lower-pair digit (0 unless the hand is a two pair). -/
def getHandRank (hr hs : List ℕ) : ℕ × ℕ × ℕ :=
  let straightMinorRank := isStraight hr
  let flushMinorRank := isFlush hr hs
  if flushMinorRank ≠ 0 ∧ straightMinorRank ≠ 0 then
    (STRAIGHT_FLUSH, straightMinorRank, 0)
  else if isXOfAKind 4 hr ≠ 0 then (FOUR_OF_A_KIND, isXOfAKind 4 hr, 0)
  else if isFullHouse hr ≠ 0 then (FULL_HOUSE, isFullHouse hr, 0)
  else if flushMinorRank ≠ 0 then (FLUSH, flushMinorRank, 0)
  else if straightMinorRank ≠ 0 then (STRAIGHT, straightMinorRank, 0)
  else if isXOfAKind 3 hr ≠ 0 then (THREE_OF_A_KIND, isXOfAKind 3 hr, 0)
  else if isTwoPair hr ≠ 0 then (TWO_PAIR, isTwoPair hr, isXOfAKind 2 hr)
  else if isXOfAKind 2 hr ≠ 0 then (ONE_PAIR, isXOfAKind 2 hr, 0)
  else (HIGH_CARD, highCard hr, 0)

/-- `isBetterHand`: the cascading comparator.  The baseline key `k` is the
`pokerHandID` triple; `hr`, `hs` are the candidate hand.  The C `switch`
jumps to the case labelled by the major rank and falls through all higher
cases, so each block runs exactly when `1 ≤ major ≤` its category; a block
whose detector fires breaks out with `true` when either the candidate's
category beats the baseline's or, at equal category, the candidate's minor
rank beats the baseline's.  In the straight-flush block the C code reuses
the straight/flush minors computed by earlier blocks and recomputes them
when those blocks left them 0; the detectors are pure, so that equals
always using the recomputed values. -/
def isBetterHand (k : ℕ × ℕ × ℕ) (hr hs : List ℕ) : Bool :=
  let majorRank := k.1
  let minorRank := k.2.1
  let straightMinorRank := isStraight hr
  let flushMinorRank := isFlush hr hs
  if majorRank = HIGH_CARD ∧ minorRank < highCard hr then true
  else if (1 ≤ majorRank ∧ majorRank ≤ ONE_PAIR) ∧ isXOfAKind 2 hr ≠ 0 ∧
      (majorRank < ONE_PAIR ∨ minorRank < isXOfAKind 2 hr) then true
  else if (1 ≤ majorRank ∧ majorRank ≤ TWO_PAIR) ∧ isTwoPair hr ≠ 0 ∧
      (majorRank < TWO_PAIR ∨ minorRank < isTwoPair hr ∨
        (isTwoPair hr = minorRank ∧ k.2.2 < isXOfAKind 2 hr)) then true
  else if (1 ≤ majorRank ∧ majorRank ≤ THREE_OF_A_KIND) ∧ isXOfAKind 3 hr ≠ 0 ∧
      (majorRank < THREE_OF_A_KIND ∨ minorRank < isXOfAKind 3 hr) then true
  else if (1 ≤ majorRank ∧ majorRank ≤ STRAIGHT) ∧ straightMinorRank ≠ 0 ∧
      (majorRank < STRAIGHT ∨ minorRank < straightMinorRank) then true
  else if (1 ≤ majorRank ∧ majorRank ≤ FLUSH) ∧ flushMinorRank ≠ 0 ∧
      (majorRank < FLUSH ∨ minorRank < flushMinorRank) then true
  else if (1 ≤ majorRank ∧ majorRank ≤ FULL_HOUSE) ∧ isFullHouse hr ≠ 0 ∧
      (majorRank < FULL_HOUSE ∨ minorRank < isFullHouse hr) then true
  else if (1 ≤ majorRank ∧ majorRank ≤ FOUR_OF_A_KIND) ∧ isXOfAKind 4 hr ≠ 0 ∧
      (majorRank < FOUR_OF_A_KIND ∨ minorRank < isXOfAKind 4 hr) then true
  else if (1 ≤ majorRank ∧ majorRank ≤ STRAIGHT_FLUSH) ∧
      straightMinorRank ≠ 0 ∧ flushMinorRank ≠ 0 ∧
      (majorRank < STRAIGHT_FLUSH ∨ minorRank < straightMinorRank) then true
  else false

/-- Strict lexicographic order on `pokerHandID` keys:
(category, primary tie-break, secondary tie-break). -/
def keyLt (k j : ℕ × ℕ × ℕ) : Prop :=
  k.1 < j.1 ∨ (k.1 = j.1 ∧ (k.2.1 < j.2.1 ∨ (k.2.1 = j.2.1 ∧ k.2.2 < j.2.2)))

instance (k j : ℕ × ℕ × ℕ) : Decidable (keyLt k j) := by
  unfold keyLt; infer_instance

/-! ## Sorting the hand (`sortHand`) -/

/-- One sweep of the bubble sort of `sortHand`, with the element currently
in front carried as an argument: adjacent cards whose ranks are out of
order are swapped, suits travelling with their ranks; the returned flag
is the C `swapDetector`. -/
def sweepAux (x : Card) : List Card → List Card × Bool
  | [] => ([x], false)
  | y :: t =>
    if y.1 < x.1 then ((sweepAux x t).1.cons y, true)
    else ((sweepAux y t).1.cons x, (sweepAux y t).2)

/-- One sweep of the bubble sort over the whole hand. -/
def sweep : List Card → List Card × Bool
  | [] => ([], false)
  | x :: t => sweepAux x t

/-- The `while (swapDetector == TRUE)` loop of `sortHand`, with fuel. -/
def sortLoop : ℕ → List Card → List Card
  | 0, l => l
  | fuel + 1, l =>
    if (sweep l).2 then sortLoop fuel (sweep l).1 else (sweep l).1

/-- `sortHand`: bubble sort of the hand, ascending by rank.  The fuel
bound exceeds the number of sweeps the loop can perform (each sweep that
swaps strictly decreases the inversion count, which is below `length²`). -/
def sortHand (l : List Card) : List Card := sortLoop (l.length * l.length + 1) l

/-! ## The estimator state and `getProbabilities` -/

/-- `repeatCards`: does the hand contain two identical cards (same rank
and same suit)?  The C double loop compares every pair `i < j`. -/
def repeatCards : List Card → Bool
  | [] => false
  | x :: t => (t.any fun y => x.1 == y.1 && x.2 == y.2) || repeatCards t

/-- The global mutable state of the C program: the working hand
(`handRank[]`/`handSuit[]`), the original-order copy
(`copyHandRank[]`/`copyHandSuit[]`), `pokerHandID[]`, `probabilities[]`,
and the random stream with its consumption counter. -/
structure GState where
  hand : List Card
  copyHand : List Card
  pokerHandID : ℕ × ℕ × ℕ
  probabilities : List ℚ
  rng : ℕ → ℕ
  rc : ℕ

/-- `loadCopyHand`: copy `copyHandRank[]`/`copyHandSuit[]` back into the
working hand. -/
def loadCopyHand (s : GState) : GState := { s with hand := s.copyHand }

/-- Two consecutive `rand()` calls producing a random card:
`randRank = rand() % RANK_COUNT + 2`, `randSuit = SUIT_LIST[rand() % 4]`. -/
def randCard (s : GState) : Card × GState :=
  ((s.rng s.rc % RANK_COUNT + 2, SUIT_LIST.getD (s.rng (s.rc + 1) % SUIT_COUNT) 0),
   { s with rc := s.rc + 2 })

/-- The rejection-sampling `do … while` loop of `getProbabilities`: write
a random card into position `swap`, retry while the hand has a repeated
card or the drawn card equals the discarded card `temp`.  Fuel-limited;
`none` on exhaustion. -/
def drawLoop (temp : Card) (swap : ℕ) : ℕ → GState → Option (GState × Card)
  | 0, _ => none
  | fuel + 1, s =>
    let d := randCard s
    let s1 := { d.2 with hand := d.2.hand.set swap d.1 }
    let sameHand := d.1.1 = temp.1 ∧ d.1.2 = temp.2
    if repeatCards s1.hand || sameHand then drawLoop temp swap fuel s1
    else some (s1, d.1)

/-- The relocation scan after re-sorting: the first index holding the
freshly drawn card, or the old `swapIndex` when the scan finds nothing. -/
def relocate (c : Card) (swap : ℕ) (h : List Card) : ℕ :=
  match h.findIdx? (fun p => p.1 == c.1 && p.2 == c.2) with
  | some k => k
  | none => swap

/-- The inner trial loop of `getProbabilities` for one discarded card
`temp`: `n` trials, each drawing a replacement, re-sorting, relocating the
replacement, and consulting `isBetterHand`.  Returns the final state, the
improvement count, the final `swapIndex`, and (as instrumentation) the
list of cards the rejection loop accepted. -/
def trialLoop (temp : Card) (fuel : ℕ) :
    ℕ → ℕ → ℕ → GState → Option (GState × ℕ × ℕ × List Card)
  | 0, count, swap, s => some (s, count, swap, [])
  | n + 1, count, swap, s =>
    match drawLoop temp swap fuel s with
    | none => none
    | some (s1, c) =>
      let s2 := { s1 with hand := sortHand s1.hand }
      let swapn := relocate c swap s2.hand
      let countn :=
        if isBetterHand s2.pokerHandID (ranks s2.hand) (suits s2.hand) then
          count + 1
        else count
      match trialLoop temp fuel n countn swapn s2 with
      | none => none
      | some (sf, cf, swf, acc) => some (sf, cf, swf, c :: acc)

/-- One iteration of the outer loop of `getProbabilities` (one position
`i` of the sorted hand): reload and sort the hand, remember the card at
position `i`, run the trials, and store the resulting percentage at the
position the discarded card occupied in the original input order. -/
def posStep (trials fuel i : ℕ) (s : GState) : Option GState :=
  let s2 := { loadCopyHand s with hand := sortHand (loadCopyHand s).hand }
  let temp := s2.hand.getD i (0, 0)
  match trialLoop temp fuel trials 0 i s2 with
  | none => none
  | some (s3, count, _, _) =>
    match s3.copyHand.findIdx? (fun p => p.2 == temp.2 && p.1 == temp.1) with
    | some j =>
      some { s3 with
        probabilities :=
          s3.probabilities.set j (100 * (count : ℚ) / (trials : ℚ)) }
    | none => some s3

/-- The preset number of trials per discarded card. -/
def sampleNumber : ℕ := 750000

/-- `getProbabilities` with the trial count as a parameter (the C source
fixes it to `sampleNumber`): the outer loop over the five positions of the
hand. -/
def getProbabilitiesWith (trials fuel : ℕ) (s : GState) : Option GState :=
  (List.range HAND_SIZE).foldlM (fun st i => posStep trials fuel i st) s

/-- `getProbabilities` proper: `sampleNumber` trials per position. -/
def getProbabilities (fuel : ℕ) (s : GState) : Option GState :=
  getProbabilitiesWith sampleNumber fuel s

/-! ## Validity of hands -/

/-- A valid card: a rank that `rankToInt` can produce and a suit from
`SUIT_LIST`. -/
def ValidCard (c : Card) : Prop := 2 ≤ c.1 ∧ c.1 ≤ 14 ∧ c.2 ∈ SUIT_LIST

/-- A valid hand: exactly five distinct valid cards (`readLine` rejects
anything else via `repeatCards` and the input checks). -/
def ValidHand (h : List Card) : Prop :=
  h.length = 5 ∧ h.Nodup ∧ ∀ c ∈ h, ValidCard c

instance (c : Card) : Decidable (ValidCard c) := by unfold ValidCard; infer_instance

instance (h : List Card) : Decidable (ValidHand h) := by
  unfold ValidHand; infer_instance

/-- The hand is ascending by rank. -/
def RankSorted (h : List Card) : Prop := h.Pairwise (fun p q => p.1 ≤ q.1)

/-- An `if` whose then-branch is the literal `true` is a disjunction. -/
lemma if_true_else (c : Prop) [Decidable c] (b : Bool) :
    (if c then true else b) = (decide c || b) := by
  by_cases h : c <;> simp [h]

lemma key_fst (a b c : ℕ) : (a, b, c).1 = a := rfl

lemma key_minor (a b c : ℕ) : (a, b, c).2.1 = b := rfl

lemma key_low (a b c : ℕ) : (a, b, c).2.2 = c := rfl

set_option maxHeartbeats 2000000 in
/-- Central equivalence: for any baseline key whose major rank is at least
1 (every `pokerHandID` is), the cascading comparator agrees with the
lexicographic comparison of the baseline key against the candidate's
`getHandRank` key. -/
theorem isBetterHand_eq_keyLt (k : ℕ × ℕ × ℕ) (hk : 1 ≤ k.1) (hr hs : List ℕ) :
    (isBetterHand k hr hs = true) ↔ keyLt k (getHandRank hr hs) := by
  obtain ⟨k1, k2, k3⟩ := k
  have hk1 : 1 ≤ k1 := hk
  simp only [isBetterHand, getHandRank, HIGH_CARD, ONE_PAIR, TWO_PAIR,
    THREE_OF_A_KIND, STRAIGHT, FLUSH, FULL_HOUSE, FOUR_OF_A_KIND,
    STRAIGHT_FLUSH]
  generalize isXOfAKind 2 hr = x2
  generalize isTwoPair hr = tp
  generalize isXOfAKind 3 hr = x3
  generalize isStraight hr = st
  generalize isFlush hr hs = fl
  generalize isFullHouse hr = fh
  generalize isXOfAKind 4 hr = x4
  generalize highCard hr = hc
  simp only [if_true_else, Bool.or_eq_true, decide_eq_true_eq,
    Bool.false_eq_true, or_false, keyLt, key_fst, key_minor, key_low]
  have hcase : k1 = 1 ∨ k1 = 2 ∨ k1 = 3 ∨ k1 = 4 ∨ k1 = 5 ∨ k1 = 6 ∨
      k1 = 7 ∨ k1 = 8 ∨ k1 = 9 ∨ 10 ≤ k1 := by omega
  rcases hcase with h | h | h | h | h | h | h | h | h | h <;>
    [subst h; subst h; subst h; subst h; subst h; subst h; subst h; subst h;
     subst h; skip] <;>
    (try simp +decide only [true_and, and_true, false_and, and_false, true_or,
      or_true, false_or, or_false]) <;>
    split_ifs <;>
    (try simp only [key_fst, key_minor, key_low, true_and, and_true, false_and,
      and_false, true_or, or_true, false_or, or_false]) <;>
    omega

/-- Every key `getHandRank` produces has major rank between 1 and 9. -/
lemma getHandRank_major_bounds (hr hs : List ℕ) :
    1 ≤ (getHandRank hr hs).1 ∧ (getHandRank hr hs).1 ≤ 9 := by
  simp only [getHandRank, HIGH_CARD, ONE_PAIR, TWO_PAIR, THREE_OF_A_KIND,
    STRAIGHT, FLUSH, FULL_HOUSE, FOUR_OF_A_KIND, STRAIGHT_FLUSH]
  split_ifs <;> simp

/-- `keyLt` is irreflexive. -/
lemma keyLt_irrefl (k : ℕ × ℕ × ℕ) : ¬ keyLt k k := by
  unfold keyLt; omega

/-- `C1`: for valid baseline hand `B` and valid candidate hand `C`, the
cascading detector-reuse comparator `isBetterHand`, run with the baseline
key `getHandRank` computed from the sorted `B`, returns `true` exactly
when the candidate's `getHandRank` key is strictly greater than the
baseline's in the lexicographic order on (category, primary tie-break,
secondary tie-break). -/
theorem better_iff_key_greater (B C : List Card)
    (hB : ValidHand B) (hC : ValidHand C) :
    (isBetterHand (getHandRank (ranks (sortHand B)) (suits (sortHand B)))
        (ranks (sortHand C)) (suits (sortHand C)) = true) ↔
      keyLt (getHandRank (ranks (sortHand B)) (suits (sortHand B)))
        (getHandRank (ranks (sortHand C)) (suits (sortHand C))) :=
  isBetterHand_eq_keyLt _
    (getHandRank_major_bounds (ranks (sortHand B)) (suits (sortHand B))).1 _ _

/-- Witness for `C1` at a concrete pair of hands: baseline a pair of
sevens, candidate a two pair; both sides of the equivalence hold. -/
theorem better_iff_key_greater_witness :
    ValidHand [(3,67),(7,68),(7,72),(9,83),(13,67)] ∧
    ValidHand [(2,67),(14,68),(14,72),(9,83),(9,67)] ∧
    ((isBetterHand
        (getHandRank (ranks (sortHand [(3,67),(7,68),(7,72),(9,83),(13,67)]))
          (suits (sortHand [(3,67),(7,68),(7,72),(9,83),(13,67)])))
        (ranks (sortHand [(2,67),(14,68),(14,72),(9,83),(9,67)]))
        (suits (sortHand [(2,67),(14,68),(14,72),(9,83),(9,67)])) = true) ↔
      keyLt
        (getHandRank (ranks (sortHand [(3,67),(7,68),(7,72),(9,83),(13,67)]))
          (suits (sortHand [(3,67),(7,68),(7,72),(9,83),(13,67)])))
        (getHandRank (ranks (sortHand [(2,67),(14,68),(14,72),(9,83),(9,67)]))
          (suits (sortHand [(2,67),(14,68),(14,72),(9,83),(9,67)])))) :=
  ⟨by decide, by decide,
    better_iff_key_greater _ _ (by decide) (by decide)⟩

/-- `C7`: whenever the baseline key equals the candidate hand's
classification key componentwise, `isBetterHand` returns `false` — no
improvement on an exact tie. -/
theorem no_improvement_on_tie (C : List Card) (hC : ValidHand C)
    (k : ℕ × ℕ × ℕ)
    (hk : k = getHandRank (ranks (sortHand C)) (suits (sortHand C))) :
    isBetterHand k (ranks (sortHand C)) (suits (sortHand C)) = false := by
  subst hk
  have h := isBetterHand_eq_keyLt
    (getHandRank (ranks (sortHand C)) (suits (sortHand C)))
    (getHandRank_major_bounds _ _).1
    (ranks (sortHand C)) (suits (sortHand C))
  have h2 := keyLt_irrefl
    (getHandRank (ranks (sortHand C)) (suits (sortHand C)))
  rcases hb : isBetterHand (getHandRank (ranks (sortHand C))
      (suits (sortHand C))) (ranks (sortHand C)) (suits (sortHand C)) with _ | _
  · rfl
  · exact absurd (h.mp hb) h2

/-- Witness for `C7`: the two-pair hand 14,14,9,9,2 compared against its
own key yields `false`. -/
theorem no_improvement_on_tie_witness :
    ValidHand [(2,67),(14,68),(14,72),(9,83),(9,67)] ∧
    isBetterHand
      (getHandRank (ranks (sortHand [(2,67),(14,68),(14,72),(9,83),(9,67)]))
        (suits (sortHand [(2,67),(14,68),(14,72),(9,83),(9,67)])))
      (ranks (sortHand [(2,67),(14,68),(14,72),(9,83),(9,67)]))
      (suits (sortHand [(2,67),(14,68),(14,72),(9,83),(9,67)])) = false :=
  ⟨by decide, no_improvement_on_tie _ (by decide) _ rfl⟩

/-- `C8`: the wheel hand 14H 2H 3H 4H 5H classifies as a straight flush
whose primary tie-break is 5 (the ace counting low). -/
theorem wheel_is_straight_flush_five :
    getHandRank (ranks (sortHand [(14,72),(2,72),(3,72),(4,72),(5,72)]))
      (suits (sortHand [(14,72),(2,72),(3,72),(4,72),(5,72)])) =
      (STRAIGHT_FLUSH, 5, 0) := by decide

/-- Success of a single category detector on a (sorted) hand, in the sense
of the classifier: `HIGH_CARD` always succeeds, `STRAIGHT_FLUSH` succeeds
when both the straight and the flush detector do. -/
def catSucceeds (hr hs : List ℕ) (c : ℕ) : Prop :=
  c = HIGH_CARD ∨
  (c = ONE_PAIR ∧ isXOfAKind 2 hr ≠ 0) ∨
  (c = TWO_PAIR ∧ isTwoPair hr ≠ 0) ∨
  (c = THREE_OF_A_KIND ∧ isXOfAKind 3 hr ≠ 0) ∨
  (c = STRAIGHT ∧ isStraight hr ≠ 0) ∨
  (c = FLUSH ∧ isFlush hr hs ≠ 0) ∨
  (c = FULL_HOUSE ∧ isFullHouse hr ≠ 0) ∨
  (c = FOUR_OF_A_KIND ∧ isXOfAKind 4 hr ≠ 0) ∨
  (c = STRAIGHT_FLUSH ∧ isStraight hr ≠ 0 ∧ isFlush hr hs ≠ 0)

set_option maxHeartbeats 1600000 in
/-- `C3`: the major rank `getHandRank` assigns is the greatest category
whose detector succeeds, in the fixed ladder HighCard < OnePair < TwoPair
< ThreeOfAKind < Straight < Flush < FullHouse < FourOfAKind <
StraightFlush; and when the straight and the flush detectors both
succeed, the key is `STRAIGHT_FLUSH` with the straight's tie-break as
primary. -/
theorem assigns_highest_category (h : List Card) (hv : ValidHand h)
    (hsort : RankSorted h) :
    IsGreatest {c | catSucceeds (ranks h) (suits h) c}
        (getHandRank (ranks h) (suits h)).1 ∧
      (isStraight (ranks h) ≠ 0 → isFlush (ranks h) (suits h) ≠ 0 →
        getHandRank (ranks h) (suits h) =
          (STRAIGHT_FLUSH, isStraight (ranks h), 0)) := by
  generalize ranks h = hr
  generalize suits h = hs
  constructor
  · have hmem : ∀ c, catSucceeds hr hs c ↔
        (c = 1 ∨
        (c = 2 ∧ isXOfAKind 2 hr ≠ 0) ∨
        (c = 3 ∧ isTwoPair hr ≠ 0) ∨
        (c = 4 ∧ isXOfAKind 3 hr ≠ 0) ∨
        (c = 5 ∧ isStraight hr ≠ 0) ∨
        (c = 6 ∧ isFlush hr hs ≠ 0) ∨
        (c = 7 ∧ isFullHouse hr ≠ 0) ∨
        (c = 8 ∧ isXOfAKind 4 hr ≠ 0) ∨
        (c = 9 ∧ isStraight hr ≠ 0 ∧ isFlush hr hs ≠ 0)) := fun c => Iff.rfl
    constructor
    · show catSucceeds hr hs (getHandRank hr hs).1
      rw [hmem]
      simp only [getHandRank, HIGH_CARD, ONE_PAIR, TWO_PAIR,
        THREE_OF_A_KIND, STRAIGHT, FLUSH, FULL_HOUSE, FOUR_OF_A_KIND,
        STRAIGHT_FLUSH]
      split_ifs with h1 h2 h3 h4 h5 h6 h7 h8 <;>
        simp only [key_fst, true_and, and_true, false_and, and_false,
          true_or, or_true, false_or, or_false] <;> omega
    · intro c hc
      have hc2 := (hmem c).mp hc
      simp only [getHandRank, HIGH_CARD, ONE_PAIR, TWO_PAIR,
        THREE_OF_A_KIND, STRAIGHT, FLUSH, FULL_HOUSE, FOUR_OF_A_KIND,
        STRAIGHT_FLUSH]
      split_ifs with h1 h2 h3 h4 h5 h6 h7 h8 <;>
        simp only [key_fst, true_and, and_true, false_and, and_false,
          true_or, or_true, false_or, or_false] <;> omega
  · intro h1 h2
    simp only [getHandRank, STRAIGHT_FLUSH]
    rw [if_pos ⟨h2, h1⟩]

instance (h : List Card) : Decidable (RankSorted h) := by
  unfold RankSorted; infer_instance

/-- Witness for `C3` at the sorted straight-flush hand 2H 3H 4H 5H 6H:
both detectors succeed and the assigned key is (STRAIGHT_FLUSH, 6, 0). -/
theorem assigns_highest_category_witness :
    ValidHand [(2,72),(3,72),(4,72),(5,72),(6,72)] ∧
    RankSorted [(2,72),(3,72),(4,72),(5,72),(6,72)] ∧
    (IsGreatest
        {c | catSucceeds (ranks [(2,72),(3,72),(4,72),(5,72),(6,72)])
          (suits [(2,72),(3,72),(4,72),(5,72),(6,72)]) c}
        (getHandRank (ranks [(2,72),(3,72),(4,72),(5,72),(6,72)])
          (suits [(2,72),(3,72),(4,72),(5,72),(6,72)])).1 ∧
      (isStraight (ranks [(2,72),(3,72),(4,72),(5,72),(6,72)]) ≠ 0 →
        isFlush (ranks [(2,72),(3,72),(4,72),(5,72),(6,72)])
          (suits [(2,72),(3,72),(4,72),(5,72),(6,72)]) ≠ 0 →
        getHandRank (ranks [(2,72),(3,72),(4,72),(5,72),(6,72)])
          (suits [(2,72),(3,72),(4,72),(5,72),(6,72)]) =
          (STRAIGHT_FLUSH,
            isStraight (ranks [(2,72),(3,72),(4,72),(5,72),(6,72)]), 0))) :=
  ⟨by decide, by decide,
    assigns_highest_category _ (by decide) (by decide)⟩

/-- `C2` fails on the code: on the perfectly valid, sorted full-house hand
3C 3D 9C 9D 9H (handRank = 3,3,9,9,9) the scan loop of `isFullHouse`
reads `handRank[5]`, one position past the five-element array, as do
`isXOfAKind(4)` on the same hand and `isXOfAKind(3)` on a two-pair hand;
the checked variants return `none` exactly when such a read happens.
Under the junk-value model of that read the detectors still terminate
and return the documented values. -/
theorem isFullHouse_reads_past_hand :
    ValidHand [(3,67),(3,68),(9,67),(9,68),(9,72)] ∧
    ranks (sortHand [(3,67),(3,68),(9,67),(9,68),(9,72)]) = [3,3,9,9,9] ∧
    isFullHouseChk [3,3,9,9,9] = none ∧
    isXOfAKindChk 4 [3,3,9,9,9] = none ∧
    isXOfAKindChk 3 [2,2,3,3,4] = none ∧
    isFullHouse [3,3,9,9,9] = 9 ∧
    isXOfAKind 4 [3,3,9,9,9] = 0 ∧
    isXOfAKind 3 [2,2,3,3,4] = 0 := by decide

/-- Rank comparison used by the sort. -/
def rankLe (p q : Card) : Prop := p.1 ≤ q.1

instance : IsTrans Card rankLe := ⟨fun _ _ _ hab hbc => Nat.le_trans hab hbc⟩

/-- Inversion count of a hand: pairs out of rank order. -/
def invCount : List Card → ℕ
  | [] => 0
  | x :: t => t.countP (fun y => decide (y.1 < x.1)) + invCount t

lemma sweepAux_perm (t : List Card) :
    ∀ x, (sweepAux x t).1.Perm (x :: t) := by
  induction t with
  | nil => intro x; simp [sweepAux]
  | cons y t ih =>
    intro x
    by_cases hxy : y.1 < x.1
    · simp only [sweepAux, if_pos hxy, List.cons.injEq]
      exact ((ih x).cons y).trans (List.Perm.swap x y t)
    · simp only [sweepAux, if_neg hxy]
      exact (ih y).cons x

lemma sweepAux_false (t : List Card) :
    ∀ x, (sweepAux x t).2 = false →
      (sweepAux x t).1 = x :: t ∧ List.Chain' rankLe (x :: t) := by
  induction t with
  | nil => intro x _; simp [sweepAux, rankLe]
  | cons y t ih =>
    intro x hfl
    by_cases hxy : y.1 < x.1
    · simp [sweepAux, if_pos hxy] at hfl
    · simp only [sweepAux, if_neg hxy] at hfl ⊢
      obtain ⟨h1, h2⟩ := ih y hfl
      rw [h1]
      exact ⟨rfl, List.chain'_cons.mpr ⟨Nat.not_lt.mp hxy, h2⟩⟩

lemma sweepAux_invCount (t : List Card) :
    ∀ x, invCount (sweepAux x t).1 + (sweepAux x t).2.toNat ≤
      invCount (x :: t) := by
  induction t with
  | nil => intro x; simp [sweepAux, invCount]
  | cons y t ih =>
    intro x
    by_cases hxy : y.1 < x.1
    · simp only [sweepAux, if_pos hxy, Bool.toNat_true]
      have hperm : (sweepAux x t).1.Perm (x :: t) := sweepAux_perm t x
      have hcnt : (sweepAux x t).1.countP (fun y2 => decide (y2.1 < y.1)) =
          (x :: t).countP (fun y2 => decide (y2.1 < y.1)) :=
        hperm.countP_eq _
      have hx := ih x
      have hxle : invCount (sweepAux x t).1 ≤ invCount (x :: t) := by omega
      simp only [invCount, hcnt, List.countP_cons] at *
      have hcx : (if decide (x.1 < y.1) = true then 1 else 0) = 0 := by
        simp [Nat.not_lt.mpr (Nat.le_of_lt hxy)]
      have hcy : (if decide (y.1 < x.1) = true then 1 else 0) = 1 := by
        simp [hxy]
      omega
    · simp only [sweepAux, if_neg hxy]
      have hperm : (sweepAux y t).1.Perm (y :: t) := sweepAux_perm t y
      have hcnt : (sweepAux y t).1.countP (fun y2 => decide (y2.1 < x.1)) =
          (y :: t).countP (fun y2 => decide (y2.1 < x.1)) :=
        hperm.countP_eq _
      have hy := ih y
      simp only [invCount, hcnt] at *
      omega

lemma invCount_le_sq (l : List Card) : invCount l ≤ l.length * l.length := by
  induction l with
  | nil => simp [invCount]
  | cons x t ih =>
    have := t.countP_le_length (p := fun y => decide (y.1 < x.1))
    simp only [invCount, List.length_cons]
    nlinarith

lemma sortLoop_perm_sorted :
    ∀ (fuel : ℕ) (l : List Card), invCount l < fuel →
      (sortLoop fuel l).Perm l ∧ List.Chain' rankLe (sortLoop fuel l) := by
  intro fuel
  induction fuel with
  | zero => intro l h; omega
  | succ f ih =>
    intro l hl
    match l with
    | [] =>
      constructor <;> simp [sortLoop, sweep]
    | x :: t =>
      simp only [sortLoop, sweep]
      by_cases hfl : (sweepAux x t).2
      · rw [if_pos hfl]
        have hinv := sweepAux_invCount t x
        rw [hfl] at hinv
        have hlt : invCount (sweepAux x t).1 < f := by
          simp only [Bool.toNat_true] at hinv
          omega
        obtain ⟨hp, hs⟩ := ih (sweepAux x t).1 hlt
        exact ⟨hp.trans (sweepAux_perm t x), hs⟩
      · rw [if_neg hfl]
        obtain ⟨h1, h2⟩ := sweepAux_false t x (Bool.not_eq_true _ ▸ (by simpa using hfl))
        rw [h1]
        exact ⟨List.Perm.refl _, h2⟩

/-- `sortHand` permutes the hand. -/
theorem sortHand_perm (l : List Card) : (sortHand l).Perm l := by
  have h := sortLoop_perm_sorted (l.length * l.length + 1) l
    (by have := invCount_le_sq l; omega)
  exact h.1

/-- `sortHand` sorts the hand ascending by rank. -/
theorem sortHand_sorted (l : List Card) : RankSorted (sortHand l) := by
  have h := sortLoop_perm_sorted (l.length * l.length + 1) l
    (by have := invCount_le_sq l; omega)
  have hch := h.2
  unfold RankSorted
  rw [List.chain'_iff_pairwise] at hch
  exact hch

/-- The suit-equality loop of `isFlush` on a five-element suit array
succeeds exactly when every suit equals the first one. -/
lemma flEqLoop_iff (hs : List ℕ) (hlen : hs.length = 5) :
    flEqLoop hs [1, 2, 3, 4, 5] = true ↔ ∀ a ∈ hs, a = nth hs 0 := by
  rcases hs with _ | ⟨s0, _ | ⟨s1, _ | ⟨s2, _ | ⟨s3, _ | ⟨s4, _ | ⟨s5, t⟩⟩⟩⟩⟩⟩ <;>
    simp at hlen
  simp only [flEqLoop, nth, HAND_SIZE, List.getD, List.mem_cons]
  norm_num

lemma nth_zero_mem (l : List ℕ) (hl : l ≠ []) : nth l 0 ∈ l := by
  cases l with
  | nil => exact absurd rfl hl
  | cons a t => simp [nth]

/-- All-equal-to-the-first is invariant under permutation. -/
lemma allEq_perm (hs₁ hs₂ : List ℕ) (hp : hs₁.Perm hs₂)
    (h : ∀ a ∈ hs₁, a = nth hs₁ 0) : ∀ a ∈ hs₂, a = nth hs₂ 0 := by
  intro a ha
  rcases hs₂ with _ | ⟨b, t⟩
  · simp at ha
  · have hne : hs₁ ≠ [] := by
      intro hemp
      rw [hemp] at hp
      exact absurd hp.symm.eq_nil (by simp)
    have h1 : a = nth hs₁ 0 := h a (hp.mem_iff.mpr ha)
    have h2 : nth (b :: t) 0 ∈ hs₁ := hp.mem_iff.mpr (nth_zero_mem _ (by simp))
    rw [h1, h (nth (b :: t) 0) h2]

/-- `isFlush` gives the same answer on any permutation of the suits. -/
lemma isFlush_perm (hr hs₁ hs₂ : List ℕ) (hl₁ : hs₁.length = 5)
    (hp : hs₁.Perm hs₂) : isFlush hr hs₁ = isFlush hr hs₂ := by
  have hl₂ : hs₂.length = 5 := hp.length_eq ▸ hl₁
  unfold isFlush
  by_cases h1 : flEqLoop hs₁ [1, 2, 3, 4, 5] = true
  · have h2 : flEqLoop hs₂ [1, 2, 3, 4, 5] = true :=
      (flEqLoop_iff hs₂ hl₂).mpr
        (allEq_perm hs₁ hs₂ hp ((flEqLoop_iff hs₁ hl₁).mp h1))
    rw [h1, h2]
  · have h2 : ¬ flEqLoop hs₂ [1, 2, 3, 4, 5] = true := by
      intro h2
      exact h1 ((flEqLoop_iff hs₁ hl₁).mpr
        (allEq_perm hs₂ hs₁ hp.symm ((flEqLoop_iff hs₂ hl₂).mp h2)))
    rw [eq_false_of_ne_true h1, eq_false_of_ne_true h2]

/-- `getHandRank` touches the suits only through `isFlush`. -/
lemma getHandRank_suit_congr (hr hs₁ hs₂ : List ℕ)
    (h : isFlush hr hs₁ = isFlush hr hs₂) :
    getHandRank hr hs₁ = getHandRank hr hs₂ := by
  unfold getHandRank
  rw [h]

/-- `C6`: classification — `sortHand` followed by `getHandRank` — yields
the identical key (category, primary and secondary tie-break) on every
permutation of a valid hand. -/
theorem classify_perm_invariant (h₁ h₂ : List Card) (hv : ValidHand h₁)
    (hp : h₁.Perm h₂) :
    getHandRank (ranks (sortHand h₁)) (suits (sortHand h₁)) =
      getHandRank (ranks (sortHand h₂)) (suits (sortHand h₂)) := by
  have hperm : (sortHand h₁).Perm (sortHand h₂) :=
    ((sortHand_perm h₁).trans hp).trans (sortHand_perm h₂).symm
  have hs1 : List.Sorted (fun a b : ℕ => a ≤ b) (ranks (sortHand h₁)) :=
    (List.pairwise_map).mpr (sortHand_sorted h₁)
  have hs2 : List.Sorted (fun a b : ℕ => a ≤ b) (ranks (sortHand h₂)) :=
    (List.pairwise_map).mpr (sortHand_sorted h₂)
  have hr : ranks (sortHand h₁) = ranks (sortHand h₂) :=
    List.eq_of_perm_of_sorted (hperm.map Prod.fst) hs1 hs2
  have hlen : (suits (sortHand h₁)).length = 5 := by
    have h5 := hv.1
    have hle := (sortHand_perm h₁).length_eq
    simp only [suits, List.length_map]
    omega
  have hfl : isFlush (ranks (sortHand h₁)) (suits (sortHand h₁)) =
      isFlush (ranks (sortHand h₁)) (suits (sortHand h₂)) :=
    isFlush_perm _ _ _ hlen (hperm.map Prod.snd)
  rw [getHandRank_suit_congr (ranks (sortHand h₁)) (suits (sortHand h₁))
    (suits (sortHand h₂)) hfl, hr]

/-- Witness for `C6`: a straight-flush hand and one of its permutations
classify identically. -/
theorem classify_perm_invariant_witness :
    ValidHand [(2,72),(3,72),(4,72),(5,72),(6,72)] ∧
    List.Perm [(2,72),(3,72),(4,72),(5,72),(6,72)]
      [(6,72),(4,72),(2,72),(5,72),(3,72)] ∧
    getHandRank (ranks (sortHand [(2,72),(3,72),(4,72),(5,72),(6,72)]))
        (suits (sortHand [(2,72),(3,72),(4,72),(5,72),(6,72)])) =
      getHandRank (ranks (sortHand [(6,72),(4,72),(2,72),(5,72),(3,72)]))
        (suits (sortHand [(6,72),(4,72),(2,72),(5,72),(3,72)])) :=
  ⟨by decide, by decide,
    classify_perm_invariant _ _ (by decide) (by decide)⟩

/-- The spec's notion of a straight on the sorted rank array: five
consecutive ranks ascending, or the exact wheel pattern 2,3,4,5,14. -/
def StraightRanks (r : List ℕ) : Prop :=
  (nth r 1 = nth r 0 + 1 ∧ nth r 2 = nth r 1 + 1 ∧ nth r 3 = nth r 2 + 1 ∧
    nth r 4 = nth r 3 + 1) ∨ r = specialStraight

lemma isXOfAKind_four_zero_of_distinct (a b c d e : ℕ)
    (hab : a ≠ b) (hbc : b ≠ c) :
    isXOfAKind 4 [a, b, c, d, e] = 0 := by
  simp [isXOfAKind, xkLoop, idx16, nth, HAND_SIZE, hab, hbc]

lemma isFullHouse_zero_of_distinct (a b c d e : ℕ)
    (hab : a ≠ b) (hbc : b ≠ c) :
    isFullHouse [a, b, c, d, e] = 0 := by
  simp [isFullHouse, fhLoop, idx16, nth, HAND_SIZE, hab, hbc]

lemma flSumLoop_eq_sum (a b c d e : ℕ) :
    flSumLoop [a, b, c, d, e] [0, 1, 2, 3, 4, 5] 0 = a + b + c + d + e := by
  simp [flSumLoop, nth, HAND_SIZE]

lemma isStraight_zero_of_not_straight (a b c d e : ℕ)
    (h2 : 2 ≤ a) (hb : 2 ≤ b) (hc : 2 ≤ c) (hd : 2 ≤ d) (he : 2 ≤ e)
    (hnost : ¬ StraightRanks [a, b, c, d, e]) :
    isStraight [a, b, c, d, e] = 0 := by
  simp only [StraightRanks, nth, specialStraight, List.getD, not_or] at hnost
  simp only [isStraight, siLoop, sjLoop, nth, specialStraight, HAND_SIZE,
    List.getD]
  norm_num at hnost ⊢
  split_ifs <;> (try contradiction) <;> omega

set_option maxHeartbeats 800000 in
/-- `C9`: a valid hand with all five suits equal whose ranks are not a
straight classifies as (FLUSH, sum of the five ranks, 0): the flush
tie-break is the rank sum, not the high card. -/
theorem flush_key_is_rank_sum (h : List Card) (hv : ValidHand h)
    (hsuit : ∀ p ∈ h, ∀ q ∈ h, p.2 = q.2)
    (hnost : ¬ StraightRanks (ranks (sortHand h))) :
    getHandRank (ranks (sortHand h)) (suits (sortHand h)) =
      (FLUSH, (ranks h).sum, 0) := by
  obtain ⟨hlen, hnd, hvc⟩ := hv
  have hperm := sortHand_perm h
  have hsorted := sortHand_sorted h
  have hsum : (ranks (sortHand h)).sum = (ranks h).sum :=
    (hperm.map Prod.fst).sum_eq
  have hlen' : (sortHand h).length = 5 := hperm.length_eq.trans hlen
  have hnd' : (sortHand h).Nodup := hperm.nodup_iff.mpr hnd
  have hvc' : ∀ c ∈ sortHand h, ValidCard c :=
    fun c hc => hvc c (hperm.subset hc)
  have hsuit' : ∀ p ∈ sortHand h, ∀ q ∈ sortHand h, p.2 = q.2 :=
    fun p hp q hq => hsuit p (hperm.subset hp) q (hperm.subset hq)
  rcases hh : sortHand h with _ | ⟨p0, _ | ⟨p1, _ | ⟨p2, _ | ⟨p3, _ |
    ⟨p4, _ | ⟨p5, t⟩⟩⟩⟩⟩⟩ <;> rw [hh] at hlen' <;> simp at hlen'
  rw [hh] at hsorted hnd' hvc' hsuit' hnost hsum
  have hr_def : ranks (p0 :: p1 :: p2 :: p3 :: p4 :: []) =
      [p0.1, p1.1, p2.1, p3.1, p4.1] := rfl
  have hs_def : suits (p0 :: p1 :: p2 :: p3 :: p4 :: []) =
      [p0.2, p1.2, p2.2, p3.2, p4.2] := rfl
  rw [hr_def, hs_def]
  rw [hr_def] at hnost hsum
  unfold RankSorted at hsorted
  simp only [List.pairwise_cons, List.mem_cons, List.mem_singleton,
    List.not_mem_nil, List.nodup_cons, List.nodup_nil] at hsorted hnd'
  have v0 := hvc' p0 (by simp)
  have v1 := hvc' p1 (by simp)
  have v2 := hvc' p2 (by simp)
  have v3 := hvc' p3 (by simp)
  have v4 := hvc' p4 (by simp)
  have s01 : p0.2 = p1.2 := hsuit' p0 (by simp) p1 (by simp)
  have s02 : p0.2 = p2.2 := hsuit' p0 (by simp) p2 (by simp)
  have s03 : p0.2 = p3.2 := hsuit' p0 (by simp) p3 (by simp)
  have s04 : p0.2 = p4.2 := hsuit' p0 (by simp) p4 (by simp)
  have s12 : p1.2 = p2.2 := by omega
  have hne01 : p0.1 ≠ p1.1 := by
    intro hq
    exact hnd'.1 (Or.inl (Prod.ext hq s01))
  have hne12 : p1.1 ≠ p2.1 := by
    intro hq
    exact hnd'.2.1 (Or.inl (Prod.ext hq s12))
  have hst : isStraight [p0.1, p1.1, p2.1, p3.1, p4.1] = 0 :=
    isStraight_zero_of_not_straight _ _ _ _ _ v0.1 v1.1 v2.1 v3.1 v4.1 hnost
  have hx4 : isXOfAKind 4 [p0.1, p1.1, p2.1, p3.1, p4.1] = 0 :=
    isXOfAKind_four_zero_of_distinct _ _ _ _ _ hne01 hne12
  have hfh : isFullHouse [p0.1, p1.1, p2.1, p3.1, p4.1] = 0 :=
    isFullHouse_zero_of_distinct _ _ _ _ _ hne01 hne12
  have hfleq : flEqLoop [p0.2, p1.2, p2.2, p3.2, p4.2] [1, 2, 3, 4, 5] =
      true := by
    apply (flEqLoop_iff _ (by simp)).mpr
    intro a ha
    simp only [List.mem_cons, List.not_mem_nil, or_false] at ha
    have hnth : nth [p0.2, p1.2, p2.2, p3.2, p4.2] 0 = p0.2 := rfl
    rcases ha with h1 | h1 | h1 | h1 | h1 <;> subst h1 <;> rw [hnth] <;>
      omega
  have hfl : isFlush [p0.1, p1.1, p2.1, p3.1, p4.1]
      [p0.2, p1.2, p2.2, p3.2, p4.2] =
      p0.1 + p1.1 + p2.1 + p3.1 + p4.1 := by
    unfold isFlush
    rw [if_pos hfleq]
    exact flSumLoop_eq_sum _ _ _ _ _
  have hsumval : ([p0.1, p1.1, p2.1, p3.1, p4.1] : List ℕ).sum =
      p0.1 + p1.1 + p2.1 + p3.1 + p4.1 := by simp; omega
  have hflne : p0.1 + p1.1 + p2.1 + p3.1 + p4.1 ≠ 0 := by
    have := v0.1
    omega
  simp only [getHandRank, hst, hx4, hfh, hfl]
  rw [if_neg (by simp : ¬(p0.1 + p1.1 + p2.1 + p3.1 + p4.1 ≠ 0 ∧
      (0 : ℕ) ≠ 0))]
  rw [if_neg (by simp : ¬((0 : ℕ) ≠ 0)), if_neg (by simp : ¬((0 : ℕ) ≠ 0))]
  rw [if_pos hflne]
  rw [← hsum, hsumval]

instance (r : List ℕ) : Decidable (StraightRanks r) := by
  unfold StraightRanks; infer_instance

/-- Witness for `C9` at the club flush 2,3,4,6,13 (rank sum 28). -/
theorem flush_key_is_rank_sum_witness :
    ValidHand [(2,67),(3,67),(4,67),(6,67),(13,67)] ∧
    (∀ p ∈ [((2:ℕ),(67:ℕ)),(3,67),(4,67),(6,67),(13,67)],
      ∀ q ∈ [((2:ℕ),(67:ℕ)),(3,67),(4,67),(6,67),(13,67)], p.2 = q.2) ∧
    ¬ StraightRanks (ranks (sortHand [(2,67),(3,67),(4,67),(6,67),(13,67)])) ∧
    getHandRank (ranks (sortHand [(2,67),(3,67),(4,67),(6,67),(13,67)]))
      (suits (sortHand [(2,67),(3,67),(4,67),(6,67),(13,67)])) =
      (FLUSH, (ranks [(2,67),(3,67),(4,67),(6,67),(13,67)]).sum, 0) :=
  ⟨by decide, by decide, by decide,
    flush_key_is_rank_sum _ (by decide) (by decide) (by decide)⟩

end Poker

namespace Poker

/-! ## List helpers for the estimator proofs -/

lemma eraseIdx_set (l : List Card) (i : ℕ) (a : Card) :
    (l.set i a).eraseIdx i = l.eraseIdx i := by
  induction l generalizing i with
  | nil => simp
  | cons x t ih =>
    cases i with
    | zero => simp
    | succ j => simp [ih]

lemma getD_set_self (l : List Card) (i : ℕ) (a : Card) (hi : i < l.length) :
    (l.set i a).getD i (0, 0) = a := by
  induction l generalizing i with
  | nil => simp at hi
  | cons x t ih =>
    cases i with
    | zero => simp
    | succ j =>
      simp only [List.set_cons_succ, List.getD_cons_succ]
      exact ih j (by simpa using hi)

lemma getD_mem_of_lt (l : List Card) (i : ℕ) (hi : i < l.length) :
    l.getD i (0, 0) ∈ l := by
  rw [List.getD_eq_getElem l (0, 0) hi]
  exact l.getElem_mem hi

lemma mem_set_self (l : List Card) (i : ℕ) (a : Card) (hi : i < l.length) :
    a ∈ l.set i a := by
  have hlen : i < (l.set i a).length := by simpa using hi
  have hm := getD_mem_of_lt (l.set i a) i hlen
  rwa [getD_set_self l i a hi] at hm

/-- A list is a permutation of the element at any position consed onto
the list with that position removed. -/
lemma perm_getD_cons_eraseIdx (l : List Card) (i : ℕ) (hi : i < l.length) :
    l.Perm (l.getD i (0, 0) :: l.eraseIdx i) := by
  induction l generalizing i with
  | nil => simp at hi
  | cons x t ih =>
    cases i with
    | zero => simp
    | succ j =>
      have hj : j < t.length := by simpa using hi
      simp only [List.getD_cons_succ, List.eraseIdx_cons_succ]
      exact ((ih j hj).cons x).trans
        (List.Perm.swap (t.getD j (0, 0)) x (t.eraseIdx j))

lemma not_mem_eraseIdx_of_nodup (l : List Card) (i : ℕ)
    (hnd : l.Nodup) (hi : i < l.length) :
    l.getD i (0, 0) ∉ l.eraseIdx i := by
  have hp := perm_getD_cons_eraseIdx l i hi
  have hnd2 : (l.getD i (0, 0) :: l.eraseIdx i).Nodup := hp.nodup_iff.mp hnd
  exact (List.nodup_cons.mp hnd2).1

/-- Removing aligned positions holding the same card from two permuted
lists leaves permuted lists. -/
lemma eraseIdx_perm_align (l₁ l₂ : List Card) (i j : ℕ)
    (hi : i < l₁.length) (hj : j < l₂.length) (hp : l₁.Perm l₂)
    (hc : l₁.getD i (0, 0) = l₂.getD j (0, 0)) :
    (l₁.eraseIdx i).Perm (l₂.eraseIdx j) := by
  have h1 := perm_getD_cons_eraseIdx l₁ i hi
  have h2 := perm_getD_cons_eraseIdx l₂ j hj
  have h3 : (l₁.getD i (0, 0) :: l₁.eraseIdx i).Perm
      (l₂.getD j (0, 0) :: l₂.eraseIdx j) := h1.symm.trans (hp.trans h2)
  rw [hc] at h3
  exact h3.cons_inv

/-- The relocation scan finds a position of a card that is in the hand. -/
lemma findIdx_spec (l : List Card) (c : Card) (hc : c ∈ l) :
    ∃ k, l.findIdx? (fun p => p.1 == c.1 && p.2 == c.2) = some k ∧
      k < l.length ∧ l.getD k (0, 0) = c := by
  induction l with
  | nil => simp at hc
  | cons x t ih =>
    by_cases hxc : x = c
    · subst hxc
      refine ⟨0, ?_, by simp, by simp⟩
      rw [List.findIdx?_cons]
      simp
    · have hct : c ∈ t := by
        rcases List.mem_cons.mp hc with h1 | h1
        · exact absurd h1.symm hxc
        · exact h1
      obtain ⟨k, hk1, hk2, hk3⟩ := ih hct
      refine ⟨k + 1, ?_, by simpa using hk2, by simpa using hk3⟩
      rw [List.findIdx?_cons]
      have hpx : (x.1 == c.1 && x.2 == c.2) = false := by
        by_cases h1 : x.1 = c.1
        · have h2 : x.2 ≠ c.2 := fun h2 => hxc (Prod.ext h1 h2)
          simp [h1, h2]
        · simp [h1]
      rw [hpx]
      simp [hk1]

/-- `repeatCards` is the complement of distinctness. -/
lemma repeatCards_eq_false_iff (l : List Card) :
    repeatCards l = false ↔ l.Nodup := by
  induction l with
  | nil => simp [repeatCards]
  | cons x t ih =>
    simp only [repeatCards, Bool.or_eq_false_iff, List.nodup_cons, ih,
      List.any_eq_false]
    constructor
    · rintro ⟨h1, h2⟩
      refine ⟨fun hmem => ?_, h2⟩
      have := h1 x hmem
      simp at this
    · rintro ⟨h1, h2⟩
      refine ⟨fun y hy => ?_, h2⟩
      have hxy : x ≠ y := fun he => h1 (he ▸ hy)
      by_cases hr : x.1 = y.1
      · have hs : x.2 ≠ y.2 := by
          intro hs
          exact hxy (Prod.ext hr hs)
        simp [hr, hs]
      · simp [hr]

end Poker

namespace Poker

/-- What a successful rejection-sampling loop guarantees: the final hand
is the entry hand with the accepted card written at `swap`, the final
hand has no repeated card, the accepted card is not the discarded card,
and no other state component changed. -/
lemma drawLoop_spec (temp : Card) (swap : ℕ) :
    ∀ (fuel : ℕ) (s s' : GState) (c : Card),
      drawLoop temp swap fuel s = some (s', c) →
      s'.hand = s.hand.set swap c ∧ repeatCards s'.hand = false ∧
      ¬(c.1 = temp.1 ∧ c.2 = temp.2) ∧
      s'.copyHand = s.copyHand ∧ s'.pokerHandID = s.pokerHandID ∧
      s'.probabilities = s.probabilities ∧ s'.rng = s.rng := by
  intro fuel
  induction fuel with
  | zero => intro s s' c h; simp [drawLoop] at h
  | succ f ih =>
    intro s s' c h
    simp only [drawLoop] at h
    split at h
    · obtain ⟨h1, h2, h3, h4, h5, h6, h7⟩ := ih _ _ _ h
      dsimp only [randCard] at h1 h4 h5 h6 h7
      refine ⟨?_, h2, h3, h4, h5, h6, h7⟩
      rw [h1, List.set_set]
    · rename_i hcond
      simp only [Option.some.injEq, Prod.mk.injEq] at h
      obtain ⟨h1, h2⟩ := h
      subst h1
      subst h2
      simp only [Bool.or_eq_true, not_or, decide_eq_true_eq] at hcond
      rw [Bool.not_eq_true] at hcond
      exact ⟨rfl, hcond.1, by simpa using hcond.2, rfl, rfl, rfl, rfl⟩

/-- The trial loop does not write `copyHand`, `pokerHandID`,
`probabilities` or the random stream, and adds at most one improvement
per trial to the counter. -/
lemma trialLoop_frame (temp : Card) (fuel : ℕ) :
    ∀ (n count swap : ℕ) (s : GState) res,
      trialLoop temp fuel n count swap s = some res →
      res.1.copyHand = s.copyHand ∧ res.1.pokerHandID = s.pokerHandID ∧
      res.1.probabilities = s.probabilities ∧ res.1.rng = s.rng ∧
      res.2.1 ≤ count + n := by
  intro n
  induction n with
  | zero =>
    intro count swap s res h
    simp only [trialLoop, Option.some.injEq] at h
    subst h
    exact ⟨rfl, rfl, rfl, rfl, Nat.le_refl _⟩
  | succ m ih =>
    intro count swap s res h
    simp only [trialLoop] at h
    cases hdl : drawLoop temp swap fuel s with
    | none => rw [hdl] at h; simp at h
    | some val =>
      rw [hdl] at h
      obtain ⟨s1, c⟩ := val
      simp only at h
      cases htl : trialLoop temp fuel m
          (if isBetterHand ({ s1 with hand := sortHand s1.hand }).pokerHandID
              (ranks ({ s1 with hand := sortHand s1.hand }).hand)
              (suits ({ s1 with hand := sortHand s1.hand }).hand) then
            count + 1
          else count)
          (relocate c swap ({ s1 with hand := sortHand s1.hand }).hand)
          { s1 with hand := sortHand s1.hand } with
      | none => rw [htl] at h; simp at h
      | some res2 =>
        rw [htl] at h
        obtain ⟨sf, cf, swf, acc⟩ := res2
        simp only [Option.some.injEq] at h
        subst h
        obtain ⟨d1, d2, d3, d4, d5⟩ := ih _ _ _ _ htl
        obtain ⟨e1, e2, e3, e4, e5, e6, e7⟩ := drawLoop_spec temp swap fuel s s1 c hdl
        refine ⟨?_, ?_, ?_, ?_, ?_⟩
        · rw [d1]; exact e4
        · rw [d2]; exact e5
        · rw [d3]; exact e6
        · rw [d4]; exact e7
        · have hred : ((sf, cf, swf, c :: acc) :
              GState × ℕ × ℕ × List Card).2.1 = cf := rfl
          have hred2 : ((sf, cf, swf, acc) :
              GState × ℕ × ℕ × List Card).2.1 = cf := rfl
          rw [hred]
          rw [hred2] at d5
          split at d5 <;> omega

end Poker

namespace Poker

/-- Invariant preservation for the trial loop: if the four cards other
than the one at `swapIndex` are (as a multiset) the original hand minus
the discarded card, then every card the rejection loop ever accepts lies
outside the original five. -/
lemma trialLoop_excludes (copy others : List Card) (temp : Card)
    (fuel : ℕ) (hco : copy.Perm (temp :: others)) :
    ∀ (n count swap : ℕ) (s : GState) res,
      swap < 5 → s.hand.length = 5 → s.hand.Nodup →
      (s.hand.eraseIdx swap).Perm others →
      trialLoop temp fuel n count swap s = some res →
      ∀ x ∈ res.2.2.2, x ∉ copy := by
  intro n
  induction n with
  | zero =>
    intro count swap s res _ _ _ _ h
    simp only [trialLoop, Option.some.injEq] at h
    subst h
    simp
  | succ m ih =>
    intro count swap s res hsw hlen hnd hinv h
    simp only [trialLoop] at h
    cases hdl : drawLoop temp swap fuel s with
    | none => rw [hdl] at h; simp at h
    | some val =>
      rw [hdl] at h
      obtain ⟨s1, c⟩ := val
      simp only at h
      obtain ⟨e1, e2, e3, _, _, _, _⟩ := drawLoop_spec temp swap fuel s s1 c hdl
      have hlen1 : s1.hand.length = 5 := by rw [e1]; simpa using hlen
      have hnd1 : s1.hand.Nodup := (repeatCards_eq_false_iff s1.hand).mp e2
      have hswlen : swap < s.hand.length := by omega
      have hgd : s1.hand.getD swap (0, 0) = c := by
        rw [e1]; exact getD_set_self _ _ _ hswlen
      have herase1 : s1.hand.eraseIdx swap = s.hand.eraseIdx swap := by
        rw [e1]; exact eraseIdx_set _ _ _
      have hcnot : c ∉ copy := by
        intro hmem
        rcases List.mem_cons.mp (hco.mem_iff.mp hmem) with h1 | h1
        · exact e3 ⟨congrArg Prod.fst h1, congrArg Prod.snd h1⟩
        · have h2 : c ∈ s1.hand.eraseIdx swap := by
            rw [herase1]
            exact (hinv.mem_iff).mpr h1
          have h3 := not_mem_eraseIdx_of_nodup s1.hand swap hnd1 (by omega)
          rw [hgd] at h3
          exact h3 h2
      cases htl : trialLoop temp fuel m
          (if isBetterHand ({ s1 with hand := sortHand s1.hand }).pokerHandID
              (ranks ({ s1 with hand := sortHand s1.hand }).hand)
              (suits ({ s1 with hand := sortHand s1.hand }).hand) then
            count + 1
          else count)
          (relocate c swap ({ s1 with hand := sortHand s1.hand }).hand)
          { s1 with hand := sortHand s1.hand } with
      | none => rw [htl] at h; simp at h
      | some res2 =>
        rw [htl] at h
        obtain ⟨sf, cf, swf, acc⟩ := res2
        simp only [Option.some.injEq] at h
        subst h
        -- properties of the sorted state
        have hp12 : (({ s1 with hand := sortHand s1.hand } : GState).hand).Perm
            s1.hand := sortHand_perm s1.hand
        have hlen2 : (({ s1 with hand := sortHand s1.hand } : GState).hand).length =
            5 := hp12.length_eq.trans hlen1
        have hnd2 : (({ s1 with hand := sortHand s1.hand } : GState).hand).Nodup :=
          hp12.nodup_iff.mpr hnd1
        have hcmem : c ∈ ({ s1 with hand := sortHand s1.hand } : GState).hand := by
          apply hp12.mem_iff.mpr
          rw [e1]
          exact mem_set_self _ _ _ hswlen
        obtain ⟨k, hk1, hk2, hk3⟩ := findIdx_spec _ c hcmem
        have hrel : relocate c swap
            ({ s1 with hand := sortHand s1.hand } : GState).hand = k := by
          unfold relocate
          rw [hk1]
        have hinv2 : ((({ s1 with hand := sortHand s1.hand } : GState).hand).eraseIdx
            k).Perm others := by
          have halign := eraseIdx_perm_align
            ({ s1 with hand := sortHand s1.hand } : GState).hand s1.hand k swap
            hk2 (by omega) hp12 (by rw [hk3, hgd])
          refine halign.trans ?_
          rw [herase1]
          exact hinv
        intro x hx
        rcases List.mem_cons.mp hx with h1 | h1
        · subst h1; exact hcnot
        · refine ih _ _ _ (sf, cf, swf, acc) ?_ hlen2 hnd2 ?_ htl x h1
          · rw [hrel]
            omega
          · rw [hrel]
            exact hinv2

end Poker

namespace Poker

/-- `C5`: in every trial for every position, the replacement card accepted
by the rejection-sampling loop is never one of the five original cards —
it differs from the four cards held fixed and from the discarded card.
The trial loop is entered exactly as `posStep` enters it; the
instrumented fourth component of its result lists every accepted card. -/
theorem replacement_not_in_original (s : GState) (trials fuel i : ℕ)
    (hv : ValidHand s.copyHand) (hi : i < 5) :
    ∀ c ∈ ((trialLoop ((sortHand s.copyHand).getD i (0, 0)) fuel trials 0 i
        { loadCopyHand s with
          hand := sortHand (loadCopyHand s).hand }).map
        (fun r => r.2.2.2)).getD [],
      c ∉ s.copyHand := by
  intro c hc
  cases hrun : trialLoop ((sortHand s.copyHand).getD i (0, 0)) fuel trials 0 i
      { loadCopyHand s with hand := sortHand (loadCopyHand s).hand } with
  | none => rw [hrun] at hc; simp [Option.map_none'] at hc
  | some res =>
    rw [hrun] at hc
    simp only [Option.map_some', Option.getD_some] at hc
    obtain ⟨hlen, hnd, _⟩ := hv
    have hperm := sortHand_perm s.copyHand
    have hlen' : (sortHand s.copyHand).length = 5 := hperm.length_eq.trans hlen
    have hnd' : (sortHand s.copyHand).Nodup := hperm.nodup_iff.mpr hnd
    have hco : s.copyHand.Perm ((sortHand s.copyHand).getD i (0, 0) ::
        (sortHand s.copyHand).eraseIdx i) :=
      hperm.symm.trans (perm_getD_cons_eraseIdx _ i (by omega))
    exact trialLoop_excludes s.copyHand ((sortHand s.copyHand).eraseIdx i)
      ((sortHand s.copyHand).getD i (0, 0)) fuel hco trials 0 i
      { loadCopyHand s with hand := sortHand (loadCopyHand s).hand } res
      hi hlen' hnd' (List.Perm.refl _) hrun c hc

/-- Witness for `C5`: with the all-diamonds hand 3..7 and the constant-0
random stream, position 0's single trial accepts the two of clubs, which
is not among the original five cards. -/
theorem replacement_not_in_original_witness :
    ValidHand [((3:ℕ),(68:ℕ)),(4,68),(5,68),(6,68),(7,68)] ∧ (0:ℕ) < 5 ∧
    ((2:ℕ), (67:ℕ)) ∈ ((trialLoop
        ((sortHand [((3:ℕ),(68:ℕ)),(4,68),(5,68),(6,68),(7,68)]).getD 0 (0, 0))
        1 1 0 0
        { loadCopyHand
            ⟨[(3,68),(4,68),(5,68),(6,68),(7,68)],
             [(3,68),(4,68),(5,68),(6,68),(7,68)],
             (6, 25, 0), [0, 0, 0, 0, 0], fun _ => 0, 0⟩ with
          hand := sortHand (loadCopyHand
            ⟨[(3,68),(4,68),(5,68),(6,68),(7,68)],
             [(3,68),(4,68),(5,68),(6,68),(7,68)],
             (6, 25, 0), [0, 0, 0, 0, 0], fun _ => 0, 0⟩).hand }).map
        (fun r => r.2.2.2)).getD [] ∧
    ((2:ℕ), (67:ℕ)) ∉ [((3:ℕ),(68:ℕ)),(4,68),(5,68),(6,68),(7,68)] :=
  ⟨by decide, by decide, by decide,
    replacement_not_in_original
      ⟨[(3,68),(4,68),(5,68),(6,68),(7,68)],
       [(3,68),(4,68),(5,68),(6,68),(7,68)],
       (6, 25, 0), [0, 0, 0, 0, 0], fun _ => 0, 0⟩ 1 1 0
      (by decide) (by decide) (2, 67) (by decide)⟩

end Poker

namespace Poker

/-- The relocation scan with the attribution predicate (suit compared
first, as in the C source). -/
lemma findIdx_spec_suitfirst (l : List Card) (c : Card) (hc : c ∈ l) :
    ∃ k, l.findIdx? (fun p => p.2 == c.2 && p.1 == c.1) = some k ∧
      k < l.length ∧ l.getD k (0, 0) = c := by
  induction l with
  | nil => simp at hc
  | cons x t ih =>
    by_cases hxc : x = c
    · subst hxc
      refine ⟨0, ?_, by simp, by simp⟩
      rw [List.findIdx?_cons]
      simp
    · have hct : c ∈ t := by
        rcases List.mem_cons.mp hc with h1 | h1
        · exact absurd h1.symm hxc
        · exact h1
      obtain ⟨k, hk1, hk2, hk3⟩ := ih hct
      refine ⟨k + 1, ?_, by simpa using hk2, by simpa using hk3⟩
      rw [List.findIdx?_cons]
      have hpx : (x.2 == c.2 && x.1 == c.1) = false := by
        by_cases h1 : x.1 = c.1
        · have h2 : x.2 ≠ c.2 := fun h2 => hxc (Prod.ext h1 h2)
          simp [h2]
        · simp [h1]
      rw [hpx]
      simp [hk1]

/-- The original position credited by the attribution scan for the card
at sorted position `i`: the first index of `copyHandRank`/`copyHandSuit`
holding that card. -/
def origIndex (copy : List Card) (i : ℕ) : ℕ :=
  (copy.findIdx? (fun p =>
    p.2 == ((sortHand copy).getD i (0, 0)).2 &&
    p.1 == ((sortHand copy).getD i (0, 0)).1)).getD 0

/-- What one outer-loop iteration (`posStep`) does: it runs the trial
loop for the card discarded at sorted position `i` and stores, at the
original position of that card, `100 · count / trials` where `count` is
the improvement count that very trial loop returned, touching nothing
else. -/
lemma posStep_probs (trials fuel i : ℕ) (s s' : GState)
    (hv : ValidHand s.copyHand) (hi : i < 5)
    (h : posStep trials fuel i s = some s') :
    ∃ (j cnt : ℕ), j < 5 ∧ cnt ≤ trials ∧ j = origIndex s.copyHand i ∧
      s.copyHand.getD j (0, 0) = (sortHand s.copyHand).getD i (0, 0) ∧
      (∃ (s3 : GState) (sw : ℕ) (acc : List Card),
        trialLoop ((sortHand s.copyHand).getD i (0, 0)) fuel trials 0 i
          ⟨sortHand s.copyHand, s.copyHand, s.pokerHandID, s.probabilities,
           s.rng, s.rc⟩ = some (s3, cnt, sw, acc)) ∧
      s'.probabilities =
        s.probabilities.set j (100 * (cnt : ℚ) / (trials : ℚ)) ∧
      s'.copyHand = s.copyHand ∧ s'.pokerHandID = s.pokerHandID ∧
      s'.rng = s.rng := by
  obtain ⟨hlen, hnd, _⟩ := hv
  have hperm := sortHand_perm s.copyHand
  have htempmem : (sortHand s.copyHand).getD i (0, 0) ∈ s.copyHand := by
    apply hperm.subset
    exact getD_mem_of_lt _ i (by rw [hperm.length_eq, hlen]; omega)
  simp only [posStep] at h
  cases htl : trialLoop ((sortHand (loadCopyHand s).hand).getD i (0, 0)) fuel
      trials 0 i
      { loadCopyHand s with hand := sortHand (loadCopyHand s).hand } with
  | none =>
    rw [htl] at h
    simp at h
  | some res =>
    rw [htl] at h
    obtain ⟨s3, count, sw, acc⟩ := res
    obtain ⟨f1, f2, f3, f4, f5⟩ := trialLoop_frame _ fuel _ _ _ _ _ htl
    have f1' : s3.copyHand = s.copyHand := f1
    have f2' : s3.pokerHandID = s.pokerHandID := f2
    have f3' : s3.probabilities = s.probabilities := f3
    have f4' : s3.rng = s.rng := f4
    have f5' : count ≤ 0 + trials := f5
    obtain ⟨k, hk1, hk2, hk3⟩ :=
      findIdx_spec_suitfirst s.copyHand ((sortHand s.copyHand).getD i (0, 0))
        htempmem
    dsimp only at h
    rw [f1'] at h
    have he : (loadCopyHand s).hand = s.copyHand := rfl
    rw [he] at h
    rw [hk1] at h
    simp only [Option.some.injEq] at h
    subst h
    have htl' : trialLoop ((sortHand s.copyHand).getD i (0, 0)) fuel trials
        0 i ⟨sortHand s.copyHand, s.copyHand, s.pokerHandID, s.probabilities,
          s.rng, s.rc⟩ = some (s3, count, sw, acc) := htl
    refine ⟨k, count, by omega, by omega, ?_, hk3, ⟨s3, sw, acc, htl'⟩, ?_,
      rfl, f2', f4'⟩
    · unfold origIndex
      rw [hk1]
      rfl
    show s3.probabilities.set k (100 * (count : ℚ) / (trials : ℚ)) =
      s.probabilities.set k (100 * (count : ℚ) / (trials : ℚ))
    rw [f3']

end Poker

namespace Poker

/-- `posStep` never writes `copyHand`, `pokerHandID` or the stream. -/
lemma posStep_frame (trials fuel i : ℕ) (s s' : GState)
    (h : posStep trials fuel i s = some s') :
    s'.copyHand = s.copyHand ∧ s'.pokerHandID = s.pokerHandID ∧
    s'.rng = s.rng := by
  simp only [posStep] at h
  cases htl : trialLoop ((sortHand (loadCopyHand s).hand).getD i (0, 0)) fuel
      trials 0 i
      { loadCopyHand s with hand := sortHand (loadCopyHand s).hand } with
  | none => rw [htl] at h; simp at h
  | some res =>
    rw [htl] at h
    obtain ⟨s3, count, sw, acc⟩ := res
    obtain ⟨f1, f2, f3, f4, f5⟩ := trialLoop_frame _ fuel _ _ _ _ _ htl
    have f1' : s3.copyHand = s.copyHand := f1
    have f2' : s3.pokerHandID = s.pokerHandID := f2
    have f4' : s3.rng = s.rng := f4
    dsimp only at h
    cases hfi : List.findIdx? (fun p =>
        p.2 == ((sortHand (loadCopyHand s).hand).getD i (0, 0)).2 &&
        p.1 == ((sortHand (loadCopyHand s).hand).getD i (0, 0)).1)
        s3.copyHand with
    | none =>
      rw [hfi] at h
      simp only [Option.some.injEq] at h
      subst h
      exact ⟨f1', f2', f4'⟩
    | some j =>
      rw [hfi] at h
      simp only [Option.some.injEq] at h
      subst h
      exact ⟨f1', f2', f4'⟩

/-- Frame property for the whole outer loop, by induction on the list of
positions. -/
lemma foldl_posStep_frame (trials fuel : ℕ) :
    ∀ (idxs : List ℕ) (s s' : GState),
      idxs.foldlM (fun st i => posStep trials fuel i st) s = some s' →
      s'.copyHand = s.copyHand ∧ s'.pokerHandID = s.pokerHandID ∧
      s'.rng = s.rng := by
  intro idxs
  induction idxs with
  | nil =>
    intro s s' h
    simp only [List.foldlM_nil, Option.pure_def, Option.some.injEq] at h
    subst h
    exact ⟨rfl, rfl, rfl⟩
  | cons i t ih =>
    intro s s' h
    rw [List.foldlM_cons] at h
    cases hps : posStep trials fuel i s with
    | none => rw [hps] at h; simp at h
    | some s1 =>
      rw [hps] at h
      have h2 : t.foldlM (fun st i => posStep trials fuel i st) s1 =
          some s' := h
      obtain ⟨a1, a2, a3⟩ := posStep_frame trials fuel i s s1 hps
      obtain ⟨b1, b2, b3⟩ := ih s1 s' h2
      exact ⟨b1.trans a1, b2.trans a2, b3.trans a3⟩

set_option maxHeartbeats 800000 in
/-- `C10`: across an entire call of the estimator the baseline key
`pokerHandID` and the original-order copies `copyHandRank`/`copyHandSuit`
are never written: when the run completes, they are exactly the values
computed before estimation began, so every `isBetterHand` call used the
one baseline key and the final attribution saw the original ordering. -/
theorem baseline_and_copy_never_written (trials fuel : ℕ) (s : GState)
    (h : (getProbabilitiesWith trials fuel s).isSome = true) :
    (getProbabilitiesWith trials fuel s).map
      (fun t => (t.pokerHandID, t.copyHand)) =
      some (s.pokerHandID, s.copyHand) := by
  cases hrun : getProbabilitiesWith trials fuel s with
  | none => rw [hrun] at h; simp at h
  | some s' =>
    have hrun2 : (List.range HAND_SIZE).foldlM
        (fun st i => posStep trials fuel i st) s = some s' := hrun
    obtain ⟨h1, h2, _⟩ := foldl_posStep_frame trials fuel _ s s' hrun2
    simp only [Option.map_some', h1, h2]

/-- Witness for `C10`: a complete one-trial run on the all-diamonds hand
3..7 with the constant-0 stream succeeds and leaves the baseline key and
the copy of the hand untouched. -/
theorem baseline_and_copy_never_written_witness :
    ((getProbabilitiesWith 1 1
        ⟨[((3:ℕ),(68:ℕ)),(4,68),(5,68),(6,68),(7,68)],
         [(3,68),(4,68),(5,68),(6,68),(7,68)],
         (6, 25, 0), [0, 0, 0, 0, 0], fun _ => 0, 0⟩).isSome = true) ∧
    (getProbabilitiesWith 1 1
        ⟨[((3:ℕ),(68:ℕ)),(4,68),(5,68),(6,68),(7,68)],
         [(3,68),(4,68),(5,68),(6,68),(7,68)],
         (6, 25, 0), [0, 0, 0, 0, 0], fun _ => 0, 0⟩).map
        (fun t => (t.pokerHandID, t.copyHand)) =
      some ((6, 25, 0), [(3,68),(4,68),(5,68),(6,68),(7,68)]) :=
  ⟨by decide,
    baseline_and_copy_never_written 1 1
      ⟨[((3:ℕ),(68:ℕ)),(4,68),(5,68),(6,68),(7,68)],
       [(3,68),(4,68),(5,68),(6,68),(7,68)],
       (6, 25, 0), [0, 0, 0, 0, 0], fun _ => 0, 0⟩ (by decide)⟩

end Poker

namespace Poker

lemma origIndex_spec (copy : List Card) (hv : ValidHand copy) (i : ℕ)
    (hi : i < 5) :
    origIndex copy i < 5 ∧
    copy.getD (origIndex copy i) (0, 0) = (sortHand copy).getD i (0, 0) := by
  obtain ⟨hlen, hnd, _⟩ := hv
  have hperm := sortHand_perm copy
  have htempmem : (sortHand copy).getD i (0, 0) ∈ copy := by
    apply hperm.subset
    exact getD_mem_of_lt _ i (by rw [hperm.length_eq, hlen]; omega)
  obtain ⟨k, hk1, hk2, hk3⟩ :=
    findIdx_spec_suitfirst copy ((sortHand copy).getD i (0, 0)) htempmem
  have hoi : origIndex copy i = k := by
    unfold origIndex
    rw [hk1]
    rfl
  rw [hoi]
  exact ⟨by omega, hk3⟩

lemma getD_inj_of_nodup (l : List Card) (hnd : l.Nodup) (i j : ℕ)
    (hi : i < l.length) (hj : j < l.length)
    (h : l.getD i (0, 0) = l.getD j (0, 0)) : i = j := by
  rw [List.getD_eq_getElem _ _ hi, List.getD_eq_getElem _ _ hj] at h
  exact (List.Nodup.getElem_inj_iff hnd).mp h

lemma origIndex_inj (copy : List Card) (hv : ValidHand copy) (i i' : ℕ)
    (hi : i < 5) (hi' : i' < 5)
    (h : origIndex copy i = origIndex copy i') : i = i' := by
  obtain ⟨h1, h2⟩ := origIndex_spec copy hv i hi
  obtain ⟨h1', h2'⟩ := origIndex_spec copy hv i' hi'
  rw [h] at h2
  have hs : (sortHand copy).getD i (0, 0) = (sortHand copy).getD i' (0, 0) :=
    h2.symm.trans h2'
  have hperm := sortHand_perm copy
  have hlen : (sortHand copy).length = 5 := hperm.length_eq.trans hv.1
  exact getD_inj_of_nodup (sortHand copy) (hperm.nodup_iff.mpr hv.2.1) i i'
    (by omega) (by omega) hs

lemma setq_getD_self (P : List ℚ) (j : ℕ) (v : ℚ) (hj : j < P.length) :
    (P.set j v).getD j 0 = v := by
  induction P generalizing j with
  | nil => simp at hj
  | cons x t ih =>
    cases j with
    | zero => simp
    | succ m =>
      simp only [List.set_cons_succ, List.getD_cons_succ]
      exact ih m (by simpa using hj)

lemma setq_getD_ne (P : List ℚ) (i j : ℕ) (v : ℚ) (hne : i ≠ j) :
    (P.set i v).getD j 0 = P.getD j 0 := by
  induction P generalizing i j with
  | nil => simp
  | cons x t ih =>
    cases i with
    | zero =>
      cases j with
      | zero => exact absurd rfl hne
      | succ m => simp
    | succ n =>
      cases j with
      | zero => simp
      | succ m =>
        simp only [List.set_cons_succ, List.getD_cons_succ]
        exact ih n m (by omega)

lemma foldl_set_length (ws : List (ℕ × ℚ)) :
    ∀ P : List ℚ, (ws.foldl (fun P w => P.set w.1 w.2) P).length =
      P.length := by
  induction ws with
  | nil => intro P; rfl
  | cons w t ih =>
    intro P
    rw [List.foldl_cons, ih]
    simp

lemma foldl_set_getD_not_mem (ws : List (ℕ × ℚ)) :
    ∀ (P : List ℚ) (j : ℕ), j ∉ ws.map Prod.fst →
      (ws.foldl (fun P w => P.set w.1 w.2) P).getD j 0 = P.getD j 0 := by
  induction ws with
  | nil => intro P j _; rfl
  | cons w t ih =>
    intro P j hj
    simp only [List.map_cons, List.mem_cons, not_or] at hj
    rw [List.foldl_cons, ih _ j hj.2, setq_getD_ne _ _ _ _ (fun he => hj.1 he.symm)]

lemma foldl_set_getD_mem (ws : List (ℕ × ℚ)) :
    ∀ (P : List ℚ) (j : ℕ) (v : ℚ), (ws.map Prod.fst).Nodup →
      (j, v) ∈ ws → j < P.length →
      (ws.foldl (fun P w => P.set w.1 w.2) P).getD j 0 = v := by
  induction ws with
  | nil => intro P j v _ hmem _; simp at hmem
  | cons w t ih =>
    intro P j v hnd hmem hj
    simp only [List.map_cons, List.nodup_cons] at hnd
    rcases List.mem_cons.mp hmem with h1 | h1
    · have hw1 : w.1 = j := by rw [← h1]
      have hjt : j ∉ t.map Prod.fst := hw1 ▸ hnd.1
      rw [List.foldl_cons, foldl_set_getD_not_mem t _ j hjt, ← h1,
        setq_getD_self _ _ _ (by simpa using hj)]
    · have hw1j : w.1 ≠ j := by
        intro he
        apply hnd.1
        rw [he]
        exact List.mem_map.mpr ⟨(j, v), h1, rfl⟩
      rw [List.foldl_cons]
      exact ih _ j v hnd.2 h1 (by simpa using hj)

lemma mem_of_nodup_five (L : List ℕ) (hnd : L.Nodup) (hlen : L.length = 5)
    (hlt : ∀ x ∈ L, x < 5) : ∀ j < 5, j ∈ L := by
  intro j hj
  have hsub : L.toFinset ⊆ Finset.range 5 := by
    intro x hx
    rw [List.mem_toFinset] at hx
    exact Finset.mem_range.mpr (hlt x hx)
  have hcard : L.toFinset.card = 5 := by
    rw [List.toFinset_card_of_nodup hnd, hlen]
  have heq : L.toFinset = Finset.range 5 :=
    Finset.eq_of_subset_of_card_le hsub (by simp [hcard])
  have : j ∈ L.toFinset := heq ▸ Finset.mem_range.mpr hj
  rwa [List.mem_toFinset] at this

lemma getD_mem_pair (l : List (ℕ × ℚ)) (k : ℕ) (hk : k < l.length) :
    l.getD k (0, 0) ∈ l := by
  rw [List.getD_eq_getElem l (0, 0) hk]
  exact l.getElem_mem hk

/-- Accumulated effect of the outer loop on `probabilities`: one write
per processed position `i`, at that position's original index, holding
`100 · count / trials` for the improvement count `count` returned by the
trial loop run for the card discarded at sorted position `i` (on the
unchanged baseline key, copy and stream). -/
lemma foldl_posStep_writes (trials fuel : ℕ) (copy : List Card)
    (hv : ValidHand copy) :
    ∀ (idxs : List ℕ) (s s' : GState), s.copyHand = copy →
      (∀ i ∈ idxs, i < 5) →
      idxs.foldlM (fun st i => posStep trials fuel i st) s = some s' →
      ∃ ws : List (ℕ × ℚ),
        ws.map Prod.fst = idxs.map (fun i => origIndex copy i) ∧
        (∀ k < idxs.length, ∃ cnt ≤ trials,
          ∃ (rc : ℕ) (probs : List ℚ) (s3 : GState) (sw : ℕ)
            (acc : List Card),
            trialLoop ((sortHand copy).getD (idxs.getD k 0) (0, 0)) fuel
              trials 0 (idxs.getD k 0)
              ⟨sortHand copy, copy, s.pokerHandID, probs, s.rng, rc⟩ =
              some (s3, cnt, sw, acc) ∧
            ws.getD k (0, 0) =
              (origIndex copy (idxs.getD k 0),
               100 * (cnt : ℚ) / (trials : ℚ))) ∧
        s'.probabilities = ws.foldl (fun P w => P.set w.1 w.2)
          s.probabilities := by
  intro idxs
  induction idxs with
  | nil =>
    intro s s' hc _ h
    simp only [List.foldlM_nil, Option.pure_def, Option.some.injEq] at h
    subst h
    refine ⟨[], by simp, ?_, rfl⟩
    intro k hk
    simp at hk
  | cons i t ih =>
    intro s s' hc hbd h
    rw [List.foldlM_cons] at h
    cases hps : posStep trials fuel i s with
    | none => rw [hps] at h; simp at h
    | some s1 =>
      rw [hps] at h
      have h2 : t.foldlM (fun st i => posStep trials fuel i st) s1 =
          some s' := h
      obtain ⟨j, cnt, hj5, hcnt, hjoi, hgd, ⟨s3, sw, acc, htl⟩, hprob, hch,
        hpid, hrng⟩ :=
        posStep_probs trials fuel i s s1 (hc ▸ hv) (hbd i (by simp)) hps
      obtain ⟨ws, w1, w2, w3⟩ := ih s1 s' (hch.trans hc)
        (fun x hx => hbd x (by simp [hx])) h2
      rw [hc] at htl hjoi
      simp only [hpid, hrng] at w2
      refine ⟨(j, 100 * (cnt : ℚ) / (trials : ℚ)) :: ws, ?_, ?_, ?_⟩
      · simp only [List.map_cons, w1, List.cons.injEq]
        exact ⟨hjoi, trivial⟩
      · intro k hk
        cases k with
        | zero =>
          refine ⟨cnt, hcnt, s.rc, s.probabilities, s3, sw, acc, htl, ?_⟩
          simp only [List.getD_cons_zero, Prod.mk.injEq]
          exact ⟨hjoi, trivial⟩
        | succ m =>
          have hm : m < t.length := by simpa using hk
          obtain ⟨c2, hc2, rc2, pr2, s32, sw2, acc2, htl2, hw2⟩ := w2 m hm
          exact ⟨c2, hc2, rc2, pr2, s32, sw2, acc2, htl2, by simpa using hw2⟩
      · rw [w3, hprob]
        rfl

end Poker

namespace Poker

set_option maxHeartbeats 1000000 in
/-- `C4`: a completed run of the estimator produces exactly five values,
one per original (unsorted) input position.  `origIndex copy i` is the
original position of the card discarded at sorted position `i`; the map
`i ↦ origIndex copy i` is injective on `0..4` and covers every original
position, so each original position receives its value exactly once.
The value stored at the original position of the discarded card is
`100 · count / trials` where `count` is the improvement count returned
by the very trial loop run for that discarded card (on the unchanged
baseline key, original copy and random stream); hence every value lies
in `[0, 100]`. -/
theorem estimator_output_per_position (trials fuel : ℕ) (htr : 0 < trials)
    (s : GState) (hv : ValidHand s.copyHand)
    (hlenp : s.probabilities.length = 5)
    (hrun : (getProbabilitiesWith trials fuel s).isSome = true) :
    ∃ s', getProbabilitiesWith trials fuel s = some s' ∧
      s'.probabilities.length = 5 ∧
      (∀ i < 5, origIndex s.copyHand i < 5 ∧
        s.copyHand.getD (origIndex s.copyHand i) (0, 0) =
          (sortHand s.copyHand).getD i (0, 0)) ∧
      (∀ i < 5, ∀ i' < 5,
        origIndex s.copyHand i = origIndex s.copyHand i' → i = i') ∧
      (∀ j < 5, ∃ i < 5, origIndex s.copyHand i = j) ∧
      (∀ i < 5, ∃ cnt ≤ trials,
        ∃ (rc : ℕ) (probs : List ℚ) (s3 : GState) (sw : ℕ)
          (acc : List Card),
          trialLoop ((sortHand s.copyHand).getD i (0, 0)) fuel trials 0 i
            ⟨sortHand s.copyHand, s.copyHand, s.pokerHandID, probs,
             s.rng, rc⟩ = some (s3, cnt, sw, acc) ∧
          s'.probabilities.getD (origIndex s.copyHand i) 0 =
            100 * (cnt : ℚ) / (trials : ℚ) ∧
          0 ≤ s'.probabilities.getD (origIndex s.copyHand i) 0 ∧
          s'.probabilities.getD (origIndex s.copyHand i) 0 ≤ 100) := by
  have hqb : ∀ cnt : ℕ, cnt ≤ trials →
      0 ≤ 100 * (cnt : ℚ) / (trials : ℚ) ∧
      100 * (cnt : ℚ) / (trials : ℚ) ≤ 100 := by
    intro cnt hc
    have ht : (0 : ℚ) < (trials : ℚ) := by exact_mod_cast htr
    constructor
    · positivity
    · rw [div_le_iff ht]
      have hcq : (cnt : ℚ) ≤ (trials : ℚ) := by exact_mod_cast hc
      nlinarith
  cases hrun2 : getProbabilitiesWith trials fuel s with
  | none => rw [hrun2] at hrun; simp at hrun
  | some s' =>
    have hfold : ([0, 1, 2, 3, 4] : List ℕ).foldlM
        (fun st i => posStep trials fuel i st) s = some s' := hrun2
    obtain ⟨ws, w1, w2, w3⟩ := foldl_posStep_writes trials fuel s.copyHand hv
      [0, 1, 2, 3, 4] s s' rfl (by intro i hi; simp at hi; omega) hfold
    have hLbound : ∀ x ∈ ws.map Prod.fst, x < 5 := by
      rw [w1]
      intro x hx
      obtain ⟨i, hi, hix⟩ := List.mem_map.mp hx
      have hi5 : i < 5 := by simp at hi; omega
      rw [← hix]
      exact (origIndex_spec s.copyHand hv i hi5).1
    have hLnd : (ws.map Prod.fst).Nodup := by
      rw [w1]
      apply List.Nodup.map_on
      · intro a ha b hb hab
        have ha5 : a < 5 := by simp at ha; omega
        have hb5 : b < 5 := by simp at hb; omega
        exact origIndex_inj s.copyHand hv a b ha5 hb5 hab
      · decide
    have hLlen : (ws.map Prod.fst).length = 5 := by rw [w1]; rfl
    have hwslen : ws.length = 5 := by
      have h5 := hLlen
      rwa [List.length_map] at h5
    have hlen' : s'.probabilities.length = 5 := by
      rw [w3, foldl_set_length, hlenp]
    refine ⟨s', rfl, hlen', fun i hi => origIndex_spec s.copyHand hv i hi,
      fun i hi i' hi' h => origIndex_inj s.copyHand hv i i' hi hi' h,
      ?_, ?_⟩
    · intro j hj
      have hjm : j ∈ ws.map Prod.fst :=
        mem_of_nodup_five _ hLnd hLlen hLbound j hj
      rw [w1] at hjm
      obtain ⟨i, hi, hij⟩ := List.mem_map.mp hjm
      have hi5 : i < 5 := by simp at hi; omega
      exact ⟨i, hi5, hij⟩
    · intro i hi
      have hgi : ([0, 1, 2, 3, 4] : List ℕ).getD i 0 = i := by
        interval_cases i <;> rfl
      obtain ⟨cnt, hcnt, rc, probs, s3, sw, acc, htl, hwk⟩ :=
        w2 i (by simpa using hi)
      rw [hgi] at htl hwk
      have hmem : (origIndex s.copyHand i,
          100 * (cnt : ℚ) / (trials : ℚ)) ∈ ws := by
        rw [← hwk]
        exact getD_mem_pair ws i (by omega)
      have hval : s'.probabilities.getD (origIndex s.copyHand i) 0 =
          100 * (cnt : ℚ) / (trials : ℚ) := by
        rw [w3]
        exact foldl_set_getD_mem ws s.probabilities _ _ hLnd hmem
          (by rw [hlenp]; exact (origIndex_spec s.copyHand hv i hi).1)
      exact ⟨cnt, hcnt, rc, probs, s3, sw, acc, htl, hval,
        hval ▸ (hqb cnt hcnt).1, hval ▸ (hqb cnt hcnt).2⟩

/-- Witness for `C4`: the one-trial run on the all-diamonds hand 3..7
with the constant-0 stream satisfies every hypothesis concretely. -/
theorem estimator_output_per_position_witness :
    (0 : ℕ) < 1 ∧
    ValidHand [((3:ℕ),(68:ℕ)),(4,68),(5,68),(6,68),(7,68)] ∧
    ([(0:ℚ), 0, 0, 0, 0].length = 5) ∧
    ((getProbabilitiesWith 1 1
        ⟨[((3:ℕ),(68:ℕ)),(4,68),(5,68),(6,68),(7,68)],
         [(3,68),(4,68),(5,68),(6,68),(7,68)],
         (6, 25, 0), [0, 0, 0, 0, 0], fun _ => 0, 0⟩).isSome = true) ∧
    (∃ s', getProbabilitiesWith 1 1
        ⟨[((3:ℕ),(68:ℕ)),(4,68),(5,68),(6,68),(7,68)],
         [(3,68),(4,68),(5,68),(6,68),(7,68)],
         (6, 25, 0), [0, 0, 0, 0, 0], fun _ => 0, 0⟩ = some s' ∧
      s'.probabilities.length = 5 ∧
      (∀ i < 5,
        origIndex [((3:ℕ),(68:ℕ)),(4,68),(5,68),(6,68),(7,68)] i < 5 ∧
        ([((3:ℕ),(68:ℕ)),(4,68),(5,68),(6,68),(7,68)] : List Card).getD
            (origIndex [((3:ℕ),(68:ℕ)),(4,68),(5,68),(6,68),(7,68)] i)
            (0, 0) =
          (sortHand [((3:ℕ),(68:ℕ)),(4,68),(5,68),(6,68),(7,68)]).getD i
            (0, 0)) ∧
      (∀ i < 5, ∀ i' < 5,
        origIndex [((3:ℕ),(68:ℕ)),(4,68),(5,68),(6,68),(7,68)] i =
          origIndex [((3:ℕ),(68:ℕ)),(4,68),(5,68),(6,68),(7,68)] i' →
        i = i') ∧
      (∀ j < 5, ∃ i < 5,
        origIndex [((3:ℕ),(68:ℕ)),(4,68),(5,68),(6,68),(7,68)] i = j) ∧
      (∀ i < 5, ∃ cnt : ℕ, cnt ≤ 1 ∧
        ∃ (rc : ℕ) (probs : List ℚ) (s3 : GState) (sw : ℕ)
          (acc : List Card),
          trialLoop
            ((sortHand [((3:ℕ),(68:ℕ)),(4,68),(5,68),(6,68),(7,68)]).getD i
              (0, 0)) 1 1 0 i
            ⟨sortHand [((3:ℕ),(68:ℕ)),(4,68),(5,68),(6,68),(7,68)],
             [(3,68),(4,68),(5,68),(6,68),(7,68)],
             (6, 25, 0), probs, fun _ => 0, rc⟩ = some (s3, cnt, sw, acc) ∧
          s'.probabilities.getD
              (origIndex [((3:ℕ),(68:ℕ)),(4,68),(5,68),(6,68),(7,68)] i)
              0 = 100 * (cnt : ℚ) / ((1 : ℕ) : ℚ) ∧
          0 ≤ s'.probabilities.getD
              (origIndex [((3:ℕ),(68:ℕ)),(4,68),(5,68),(6,68),(7,68)] i)
              0 ∧
          s'.probabilities.getD
              (origIndex [((3:ℕ),(68:ℕ)),(4,68),(5,68),(6,68),(7,68)] i)
              0 ≤ 100)) := by
  refine ⟨by decide, by decide, by decide, by decide, ?_⟩
  exact estimator_output_per_position 1 1 (by decide)
    ⟨[((3:ℕ),(68:ℕ)),(4,68),(5,68),(6,68),(7,68)],
     [(3,68),(4,68),(5,68),(6,68),(7,68)],
     (6, 25, 0), [0, 0, 0, 0, 0], fun _ => 0, 0⟩
    (by decide) (by decide) (by decide)

end Poker
